import Mathlib

/-!
Verification development for the mini-redis repository.

Shallow embedding conventions:
- Rust `u8` bytes are `Nat` values below 256; `Bytes` buffers are `List Nat`.
- Rust `String` values are represented by their UTF-8 byte sequences
  (`List Nat`); the representation is injective, and all protocol tokens
  are ASCII, so ASCII case mapping models `to_uppercase`/`to_lowercase`.
- `Instant` is a Nat tick count of the monotonic clock, `Duration` is a
  Nat tick count of the same unit (milliseconds).
- Fallible Rust code returns `Except`/`Option`; a Rust panic (`unwrap` on
  `None`, slice out of range, `unreachable!`) is `none` / a dedicated
  constructor.
- Loops whose termination is not structural use a fuel argument large
  enough for every reachable input, so that every definition reduces by
  `rfl`/`decide`.
-/

namespace MiniRedis

/-- UTF-8 bytes of an ASCII string literal (every constant used here is ASCII). -/
def strBytes (s : String) : List Nat :=
  s.data.map Char.toNat

/-- Does a byte list contain the two-byte sequence CR LF (13, 10)?
Used to state when the line scanner of frame.rs can cut a payload short. -/
def hasCrlf : List Nat → Bool
  | a :: b :: rest => if a = 13 ∧ b = 10 then true else hasCrlf (b :: rest)
  | _ => false

/-- Reversed decimal digits of a positive `n` (ASCII), fuel-structural; fuel
`n` suffices because `n / 10 < n` for positive `n`. -/
def digitsRevFuel : Nat → Nat → List Nat
  | 0, _ => []
  | _ + 1, 0 => []
  | fuel + 1, n + 1 => ((n + 1) % 10 + 48) :: digitsRevFuel fuel ((n + 1) / 10)

/-- Canonical decimal ASCII digits of `n`, most significant first: the bytes
produced by Rust `write!(buf, "{}", n)` for a `u64` in
`Connection::write_decimal` (src/src/connection.rs). -/
def decDigits (n : Nat) : List Nat :=
  if n = 0 then [48] else (digitsRevFuel n n).reverse

/-- Accumulating loop of the `atoi` crate: consume leading ASCII digits. -/
def atoiAcc : List Nat → Nat → Nat
  | [], acc => acc
  | b :: rest, acc =>
    if 48 ≤ b ∧ b ≤ 57 then atoiAcc rest (acc * 10 + (b - 48)) else acc

/-- The `atoi::atoi::<u64>` call used by `get_decimal` (src/src/frame.rs):
parses the maximal leading run of ASCII digits, `none` when the input does not
start with a digit.  Overflow of `u64` is not modelled; every theorem below
instantiates it only on values below `2 ^ 64`. -/
def atoi (bs : List Nat) : Option Nat :=
  match bs with
  | b :: rest => if 48 ≤ b ∧ b ≤ 57 then some (atoiAcc (b :: rest) 0) else none
  | [] => none

/-- A RESP frame (src/src/frame.rs, `enum Frame`).  `Simple`/`Error` text is
kept as its UTF-8 byte sequence, `Integer` is the `u64` payload. -/
inductive Frame where
  | simple (s : List Nat)
  | error (s : List Nat)
  | integer (n : Nat)
  | bulk (b : List Nat)
  | null
  | array (items : List Frame)

/-- Encoder for one non-array frame: `Connection::write_value`
(src/src/connection.rs).  A nested `Array` hits `unreachable!()`, modelled
as `none`. -/
def writeValue : Frame → Option (List Nat)
  | .simple s => some (43 :: s ++ [13, 10])
  | .error s => some (45 :: s ++ [13, 10])
  | .integer n => some (58 :: decDigits n ++ [13, 10])
  | .null => some [36, 45, 49, 13, 10]
  | .bulk b => some (36 :: decDigits b.length ++ [13, 10] ++ b ++ [13, 10])
  | .array _ => none

/-- Encode the items of an array frame in order, failing if any item is
itself an array. -/
def writeItems : List Frame → Option (List Nat)
  | [] => some []
  | f :: rest =>
    match writeValue f with
    | none => none
    | some e =>
      match writeItems rest with
      | none => none
      | some es => some (e ++ es)

/-- Encoder entry point: `Connection::write_frame` (src/src/connection.rs).
An array is encoded as `*`, the decimal item count, CR LF, then each item
through `write_value`; any other frame goes through `write_value` directly. -/
def writeFrame : Frame → Option (List Nat)
  | .array items =>
    match writeItems items with
    | none => none
    | some body => some (42 :: decDigits items.length ++ [13, 10] ++ body)
  | f => writeValue f

/-- Decoder-side error (src/src/frame.rs, `enum FrameError`). -/
inductive FrameErr where
  | incomplete
  | other (msg : String)
deriving Repr, DecidableEq

/-- A read cursor over an immutable byte buffer (`std::io::Cursor<&[u8]>`). -/
structure Cursor where
  buf : List Nat
  pos : Nat
deriving Repr, DecidableEq

/-- The `peek_u8` helper (src/src/frame.rs): first unread byte, without
advancing. -/
def peekU8 (c : Cursor) : Except FrameErr Nat :=
  if c.pos < c.buf.length then .ok (c.buf.getD c.pos 0) else .error .incomplete

/-- The `get_u8` helper (src/src/frame.rs): first unread byte, advancing by
one. -/
def getU8 (c : Cursor) : Except FrameErr (Nat × Nat) :=
  if c.pos < c.buf.length then .ok (c.buf.getD c.pos 0, c.pos + 1)
  else .error .incomplete

/-- The `skip` helper (src/src/frame.rs): advance by `n` if that many bytes
remain. -/
def skipN (c : Cursor) (n : Nat) : Except FrameErr Nat :=
  if n ≤ c.buf.length - c.pos then .ok (c.pos + n) else .error .incomplete

/-- Iteration core of the scan `(start..end).find` inside `get_line`
(src/src/frame.rs): try indices `i, i + 1, ...` while `left` candidates
remain, looking for bytes CR LF at `i, i + 1`. -/
def findCrlfGo (buf : List Nat) : Nat → Nat → Option Nat
  | _, 0 => none
  | i, left + 1 =>
    if buf.getD i 0 = 13 ∧ buf.getD (i + 1) 0 = 10 then some i
    else findCrlfGo buf (i + 1) left

/-- The scan `(start..end).find` inside `get_line` (src/src/frame.rs): first
index `i` in `[start, stop)` with bytes CR LF at `i, i + 1`. -/
def findCrlfFrom (buf : List Nat) (stop start : Nat) : Option Nat :=
  findCrlfGo buf start (stop - start)

/-- The `get_line` helper (src/src/frame.rs): scan from the current position
up to the second-to-last byte for CR LF; on success return the line (bytes
from the current position up to the CR) and the position just after the LF. -/
def getLine (c : Cursor) : Except FrameErr (List Nat × Nat) :=
  match findCrlfFrom c.buf (c.buf.length - 1) c.pos with
  | some i => .ok ((c.buf.drop c.pos).take (i - c.pos), i + 2)
  | none => .error .incomplete

/-- The `get_decimal` helper (src/src/frame.rs): read a line and parse it
with `atoi`. -/
def getDecimal (c : Cursor) : Except FrameErr (Nat × Nat) :=
  match getLine c with
  | .error e => .error e
  | .ok (line, p) =>
    match atoi line with
    | some n => .ok (n, p)
    | none => .error (.other ("protocol error; invalid frame format"))

/-- Iterate a check over `n` consecutive sub-frames: the
`(0..len).try_for_each` loop in the `*` arm of `Frame::check`. -/
def checkMany (chk : Cursor → Except FrameErr Nat) : Nat → Cursor → Except FrameErr Nat
  | 0, c => .ok c.pos
  | n + 1, c =>
    match chk c with
    | .error e => .error e
    | .ok p => checkMany chk n ⟨c.buf, p⟩

/-- The check pass `Frame::check` (src/src/frame.rs), fuel-structural on the
array nesting depth; each recursion step first consumes at least one byte, so
fuel `buf.length + 1` (used by `frameCheck`) is never exhausted.  Returns the
cursor position just past the checked frame. -/
def checkF : Nat → Cursor → Except FrameErr Nat
  | 0, _ => .error .incomplete
  | fuel + 1, c =>
    match getU8 c with
    | .error e => .error e
    | .ok (b, p1) =>
      if b = 43 then
        match getLine ⟨c.buf, p1⟩ with
        | .error e => .error e
        | .ok (_, p2) => .ok p2
      else if b = 45 then
        match getLine ⟨c.buf, p1⟩ with
        | .error e => .error e
        | .ok (_, p2) => .ok p2
      else if b = 58 then
        match getDecimal ⟨c.buf, p1⟩ with
        | .error e => .error e
        | .ok (_, p2) => .ok p2
      else if b = 36 then
        match peekU8 ⟨c.buf, p1⟩ with
        | .error e => .error e
        | .ok pb =>
          if pb = 45 then
            skipN ⟨c.buf, p1⟩ 4
          else
            match getDecimal ⟨c.buf, p1⟩ with
            | .error e => .error e
            | .ok (len, p2) => skipN ⟨c.buf, p2⟩ (len + 2)
      else if b = 42 then
        match getDecimal ⟨c.buf, p1⟩ with
        | .error e => .error e
        | .ok (len, p2) => checkMany (checkF fuel) len ⟨c.buf, p2⟩
      else
        .error (.other ("protocol error; invalid frame type byte"))

/-- Iterate the parse over `n` consecutive sub-frames: the sequential
`(0..len).map` in the `*` arm of the `From` impl. -/
def parseMany (pf : Cursor → Option (Frame × Nat)) : Nat → Cursor → Option (List Frame × Nat)
  | 0, c => some ([], c.pos)
  | n + 1, c =>
    match pf c with
    | none => none
    | some (f, p) =>
      match parseMany pf n ⟨c.buf, p⟩ with
      | none => none
      | some (fs, p2) => some (f :: fs, p2)

/-- The parse pass `impl From<&mut Cursor<&[u8]>> for Frame`
(src/src/frame.rs), fuel-structural like `checkF`.  The source unwraps every
helper result (the message was already validated by `check`); a panic is
modelled as `none`.  In the Null arm the source writes `let _ = get_line(src)`
and ignores a failure, so a failing `get_line` leaves the position unchanged.
Returns the frame and the position just past it. -/
def parseF : Nat → Cursor → Option (Frame × Nat)
  | 0, _ => none
  | fuel + 1, c =>
    match getU8 c with
    | .error _ => none
    | .ok (b, p1) =>
      if b = 43 then
        match getLine ⟨c.buf, p1⟩ with
        | .error _ => none
        | .ok (line, p2) => some (.simple line, p2)
      else if b = 45 then
        match getLine ⟨c.buf, p1⟩ with
        | .error _ => none
        | .ok (line, p2) => some (.error line, p2)
      else if b = 58 then
        match getDecimal ⟨c.buf, p1⟩ with
        | .error _ => none
        | .ok (n, p2) => some (.integer n, p2)
      else if b = 36 then
        match peekU8 ⟨c.buf, p1⟩ with
        | .error _ => none
        | .ok pb =>
          if pb = 45 then
            match getLine ⟨c.buf, p1⟩ with
            | .ok (_, p2) => some (.null, p2)
            | .error _ => some (.null, p1)
          else
            match getDecimal ⟨c.buf, p1⟩ with
            | .error _ => none
            | .ok (len, p2) =>
              match skipN ⟨c.buf, p2⟩ (len + 2) with
              | .error _ => none
              | .ok p3 => some (.bulk ((c.buf.drop p2).take len), p3)
      else if b = 42 then
        match getDecimal ⟨c.buf, p1⟩ with
        | .error _ => none
        | .ok (len, p2) =>
          match parseMany (parseF fuel) len ⟨c.buf, p2⟩ with
          | none => none
          | some (items, p3) => some (.array items, p3)
      else
        none

/-- Run the check pass from position zero, as `Connection::parse_frame` does
(src/src/connection.rs). -/
def frameCheck (buf : List Nat) : Except FrameErr Nat :=
  checkF (buf.length + 1) ⟨buf, 0⟩

/-- Run the parse pass from position zero, as `Connection::parse_frame` does
after a successful check. -/
def frameParse (buf : List Nat) : Option (Frame × Nat) :=
  parseF (buf.length + 1) ⟨buf, 0⟩

/-- A key of the store (the UTF-8 bytes of the Rust `String` key). -/
abbrev Key := List Nat

/-- Strict lexicographic order on byte strings: the `Ord` instance of Rust
`String` used by the `BTreeSet` tie-break component. -/
def keyLtB : Key → Key → Bool
  | [], [] => false
  | [], _ :: _ => true
  | _ :: _, [] => false
  | a :: xs, b :: ys => a < b || (a = b && keyLtB xs ys)

/-- Strict lexicographic order on `(Instant, key)` pairs: the `Ord` instance
of the `BTreeSet<(Instant, String)>` expiration index. -/
def pairLtB (p q : Nat × Key) : Bool :=
  p.1 < q.1 || (p.1 = q.1 && keyLtB p.2 q.2)

/-- Insert into the sorted duplicate-free pair list: `BTreeSet::insert`. -/
def insertPair (p : Nat × Key) : List (Nat × Key) → List (Nat × Key)
  | [] => [p]
  | q :: rest =>
    if pairLtB p q then p :: q :: rest
    else if p = q then q :: rest
    else q :: insertPair p rest

/-- Remove the (unique) matching element: `BTreeSet::remove`. -/
def removePair (p : Nat × Key) : List (Nat × Key) → List (Nat × Key)
  | [] => []
  | q :: rest => if q = p then rest else q :: removePair p rest

/-- An entry of the key table (src/src/db.rs, `struct Entry`). -/
structure Entry where
  data : List Nat
  expires_at : Option Nat
deriving Repr, DecidableEq

/-- Look up a key in an association list (`HashMap::get`). -/
def lookupKey (k : Key) : List (Key × Entry) → Option Entry
  | [] => none
  | (k2, e) :: rest => if k2 = k then some e else lookupKey k rest

/-- Insert or replace a binding (`HashMap::insert`), also returning the
previous entry for the key, as the Rust call does. -/
def insertEntry (k : Key) (e : Entry) : List (Key × Entry) → List (Key × Entry)
  | [] => [(k, e)]
  | (k2, e2) :: rest =>
    if k2 = k then (k, e) :: rest else (k2, e2) :: insertEntry k e rest

/-- Remove a binding (`HashMap::remove`). -/
def removeKey (k : Key) : List (Key × Entry) → List (Key × Entry)
  | [] => []
  | (k2, e2) :: rest => if k2 = k then rest else (k2, e2) :: removeKey k rest

/-- The guarded shared state (src/src/db.rs, `struct State`).  A pub/sub
channel is modelled by the number of live receivers of its
`broadcast::Sender`; `entries` is the `HashMap` as a duplicate-free
association list, `expirations` the `BTreeSet` as a sorted duplicate-free
list. -/
structure DbState where
  entries : List (Key × Entry)
  pubSub : List (Key × Nat)
  expirations : List (Nat × Key)
  isShutdown : Bool
deriving Repr, DecidableEq

/-- The empty state built by `Db::new` (src/src/db.rs). -/
def dbNew : DbState :=
  { entries := [], pubSub := [], expirations := [], isShutdown := false }

/-- Look up a channel sender (`HashMap::get` on `pub_sub`), yielding its live
receiver count. -/
def lookupChan (k : Key) : List (Key × Nat) → Option Nat
  | [] => none
  | (k2, n) :: rest => if k2 = k then some n else lookupChan k rest

/-- The `State::next_expiration` helper (src/src/db.rs): instant of the first
element of the sorted expiration index. -/
def nextExpiration (s : DbState) : Option Nat :=
  s.expirations.head?.map (fun p => p.1)

/-- The `Db::get` method (src/src/db.rs, lines 110-116): return the data of
the entry currently mapped to the key.  Note that the source never consults
`expires_at` here, and takes no clock reading at all. -/
def dbGet (s : DbState) (key : Key) : Option (List Nat) :=
  (lookupKey key s.entries).map (fun e => e.data)

/-- The `Db::set` method (src/src/db.rs, lines 121-157).  Returns the new
state and the `notify` flag passed to `background_task.notify_one()`.
`now` is the `Instant::now()` reading taken inside the expiration closure. -/
def dbSet (s : DbState) (key : Key) (value : List Nat) (expire : Option Nat) (now : Nat) :
    DbState × Bool :=
  let expiresAt := expire.map (fun duration => now + duration)
  let notify :=
    match expiresAt with
    | some w =>
      match nextExpiration s with
      | some e => decide (e > w)
      | none => true
    | none => false
  let prev := lookupKey key s.entries
  let entries1 := insertEntry key ⟨value, expiresAt⟩ s.entries
  let exps1 :=
    match prev with
    | some e =>
      match e.expires_at with
      | some w => removePair (w, key) s.expirations
      | none => s.expirations
    | none => s.expirations
  let exps2 :=
    match expiresAt with
    | some w => insertPair (w, key) exps1
    | none => exps1
  ({ s with entries := entries1, expirations := exps2 }, notify)

/-- The `Db::subscribe` method (src/src/db.rs, lines 162-183): create the
channel lazily and hand out one more receiver. -/
def dbSubscribe (s : DbState) (key : Key) : DbState :=
  match lookupChan key s.pubSub with
  | some n => { s with pubSub := (s.pubSub.map (fun p => if p.1 = key then (p.1, n + 1) else p)) }
  | none => { s with pubSub := s.pubSub ++ [(key, 1)] }

/-- The `Db::publish` method (src/src/db.rs, lines 186-196).  On a present
channel, `tx.send(value).unwrap_or(0)` yields the live receiver count (0 when
the send fails for lack of receivers).  On an absent channel the source calls
`Option::unwrap()` on `None`, a panic, modelled as `none`. -/
def dbPublish (s : DbState) (channel : Key) : Option Nat :=
  match lookupChan channel s.pubSub with
  | some receivers => some receivers
  | none => none

/-- The loop of `Shared::purge_expired_keys` (src/src/db.rs, lines 223-234):
walk the sorted index; while the head is due, drop the entry and the pair;
stop at the first future instant, which is returned as the wake-up target. -/
def purgeLoop (now : Nat) :
    List (Nat × Key) → List (Key × Entry) →
    List (Nat × Key) × List (Key × Entry) × Option Nat
  | [], entries => ([], entries, none)
  | (w, key) :: rest, entries =>
    if now < w then ((w, key) :: rest, entries, some w)
    else purgeLoop now rest (removeKey key entries)

/-- The `Shared::purge_expired_keys` method (src/src/db.rs, lines 211-235):
`none` immediately when shut down, otherwise run the purge loop at the
current instant. -/
def purgeExpiredKeys (s : DbState) (now : Nat) : DbState × Option Nat :=
  if s.isShutdown then (s, none)
  else
    let r := purgeLoop now s.expirations s.entries
    ({ s with expirations := r.1, entries := r.2.1 }, r.2.2)

/-- Modelled from the spec: `Db::del` for one key.  `Del::apply`
(src/src/cmd/del.rs, line 38) calls `db.del(self.keys)`, but src/src/db.rs
contains no `del` method; spec section 4.3 defines it: remove each listed key
and its expiration pair if any, where missing keys are not errors. -/
def delOne (s : DbState) (key : Key) : DbState :=
  match lookupKey key s.entries with
  | none => s
  | some e =>
    let exps :=
      match e.expires_at with
      | some w => removePair (w, key) s.expirations
      | none => s.expirations
    { s with entries := removeKey key s.entries, expirations := exps }

/-- Modelled from the spec: `Db::del` over the whole key list (spec section
4.3, the operation `del(keys...)`). -/
def dbDel (s : DbState) (keys : List Key) : DbState :=
  keys.foldl delOne s

/-- The `Del::apply` method (src/src/cmd/del.rs, lines 36-46): perform the
deletion and respond with the simple frame OK. -/
def delApply (s : DbState) (keys : List Key) : DbState × Frame :=
  (dbDel s keys, .simple (strBytes ("OK")))

/-- Parser-level error (src/src/parser.rs, `enum ParserError`).  Only
`endOfStream` is handled at runtime; all others terminate the connection. -/
inductive ParserErr where
  | endOfStream
  | other (msg : String)
deriving Repr, DecidableEq

/-- Render a parser error as the boxed `crate::Error` string it bubbles up
as (`Display` impl of `ParserError`). -/
def perrStr : ParserErr → String
  | .endOfStream => "protocol error; unexpected end of stream"
  | .other m => m

/-- The `Parser::next_string` extractor (src/src/parser.rs): accept Simple or
Bulk, reject other variants.  UTF-8 validation of Bulk bytes is not modelled
(strings are byte sequences here); all tokens in the claims are ASCII. -/
def pNextString : List Frame → Except ParserErr (Key × List Frame)
  | [] => .error .endOfStream
  | .simple s :: rest => .ok (s, rest)
  | .bulk b :: rest => .ok (b, rest)
  | _ :: _ => .error (.other ("protocol error; expected simple or bulk frame"))

/-- The `Parser::next_bytes` extractor (src/src/parser.rs). -/
def pNextBytes : List Frame → Except ParserErr (List Nat × List Frame)
  | [] => .error .endOfStream
  | .simple s :: rest => .ok (s, rest)
  | .bulk b :: rest => .ok (b, rest)
  | _ :: _ => .error (.other ("protocol error; expected simple or bulk frame"))

/-- The `Parser::next_int` extractor (src/src/parser.rs): Integer directly,
or Simple/Bulk bytes through `atoi`. -/
def pNextInt : List Frame → Except ParserErr (Nat × List Frame)
  | [] => .error .endOfStream
  | .integer v :: rest => .ok (v, rest)
  | .simple s :: rest =>
    match atoi s with
    | some v => .ok (v, rest)
    | none => .error (.other ("protocol error; invalid number"))
  | .bulk b :: rest =>
    match atoi b with
    | some v => .ok (v, rest)
    | none => .error (.other ("protocol error; invalid number"))
  | _ :: _ => .error (.other ("protocol error; expected integer frame"))

/-- The `Parser::finish` check (src/src/parser.rs): error unless exhausted. -/
def pFinish : List Frame → Except ParserErr Unit
  | [] => .ok ()
  | _ :: _ => .error (.other ("protocol error; expected end of frame"))

/-- ASCII lowercase mapping, modelling `str::to_lowercase` on the ASCII
command names of the protocol. -/
def asciiLower (s : List Nat) : List Nat :=
  s.map (fun b => if 65 ≤ b ∧ b ≤ 90 then b + 32 else b)

/-- ASCII uppercase mapping, modelling `str::to_uppercase` on the ASCII
option tokens EX and PX. -/
def asciiUpper (s : List Nat) : List Nat :=
  s.map (fun b => if 97 ≤ b ∧ b ≤ 122 then b - 32 else b)

/-- A parsed command (src/src/cmd/mod.rs, `enum Command`).  A `Set` expire
duration is in milliseconds: `Duration::from_secs(n)` is `1000 * n`,
`Duration::from_millis(n)` is `n`. -/
inductive Command where
  | get (key : Key)
  | set (key : Key) (value : List Nat) (expire : Option Nat)
  | del (keys : List Key)
  | publish (channel : Key) (message : List Nat)
  | subscribe (channels : List Key)
  | unsubscribe (channels : List Key)
  | ping (msg : Option (List Nat))
  | unknown (name : Key)

/-- The tail loop shared by `Del`, `Subscribe` and `Unsubscribe` parsing:
collect `next_string` results until `EndOfStream`, bubbling any other
error. -/
def collectStrings : List Frame → Except String (List Key)
  | [] => .ok []
  | .simple s :: rest => (collectStrings rest).map (fun l => s :: l)
  | .bulk b :: rest => (collectStrings rest).map (fun l => b :: l)
  | _ :: _ => .error ("protocol error; expected simple or bulk frame")

/-- The `impl TryFrom<&mut Parser> for Set` (src/src/cmd/set.rs, lines
75-111): key, value, then an optional EX/PX option compared after
`to_uppercase`; any other option token is the fatal error about the
expiration option; `EndOfStream` means no option. -/
def setTryFrom (parts : List Frame) :
    Except String (Key × List Nat × Option Nat × List Frame) :=
  match pNextString parts with
  | .error e => .error (perrStr e)
  | .ok (key, parts1) =>
    match pNextBytes parts1 with
    | .error e => .error (perrStr e)
    | .ok (value, parts2) =>
      match pNextString parts2 with
      | .ok (s, parts3) =>
        if asciiUpper s = strBytes ("EX") then
          match pNextInt parts3 with
          | .ok (secs, parts4) => .ok (key, value, some (1000 * secs), parts4)
          | .error e => .error (perrStr e)
        else if asciiUpper s = strBytes ("PX") then
          match pNextInt parts3 with
          | .ok (ms, parts4) => .ok (key, value, some ms, parts4)
          | .error e => .error (perrStr e)
        else
          .error ("currently `SET` only supports the expiration option")
      | .error .endOfStream => .ok (key, value, none, parts2)
      | .error (.other m) => .error m

/-- The `impl TryFrom<Frame> for Command` (src/src/cmd/mod.rs, lines 79-110),
which `Command::from_frame` in `Handler::run` resolves to: require an array
frame, read the lowercased name, dispatch to the per-command `TryFrom`, then
`finish`; an unrecognized name returns `Unknown` without `finish`. -/
def commandFromFrame : Frame → Except String Command
  | .array items =>
    match pNextString items with
    | .error e => .error (perrStr e)
    | .ok (rawName, parts) =>
      let name := asciiLower rawName
      if name = strBytes ("get") then
        match pNextString parts with
        | .error e => .error (perrStr e)
        | .ok (key, parts1) =>
          match pFinish parts1 with
          | .error e => .error (perrStr e)
          | .ok _ => .ok (.get key)
      else if name = strBytes ("set") then
        match setTryFrom parts with
        | .error m => .error m
        | .ok (key, value, expire, parts1) =>
          match pFinish parts1 with
          | .error e => .error (perrStr e)
          | .ok _ => .ok (.set key value expire)
      else if name = strBytes ("del") then
        match pNextString parts with
        | .error e => .error (perrStr e)
        | .ok (first, rest) =>
          match collectStrings rest with
          | .error m => .error m
          | .ok more => .ok (.del (first :: more))
      else if name = strBytes ("publish") then
        match pNextString parts with
        | .error e => .error (perrStr e)
        | .ok (channel, parts1) =>
          match pNextBytes parts1 with
          | .error e => .error (perrStr e)
          | .ok (message, parts2) =>
            match pFinish parts2 with
            | .error e => .error (perrStr e)
            | .ok _ => .ok (.publish channel message)
      else if name = strBytes ("subscribe") then
        match pNextString parts with
        | .error e => .error (perrStr e)
        | .ok (first, rest) =>
          match collectStrings rest with
          | .error m => .error m
          | .ok more => .ok (.subscribe (first :: more))
      else if name = strBytes ("unsubscribe") then
        match collectStrings parts with
        | .error m => .error m
        | .ok channels => .ok (.unsubscribe channels)
      else if name = strBytes ("ping") then
        match pNextBytes parts with
        | .ok (msg, parts1) =>
          match pFinish parts1 with
          | .error e => .error (perrStr e)
          | .ok _ => .ok (.ping (some msg))
        | .error .endOfStream =>
          match pFinish parts with
          | .error e => .error (perrStr e)
          | .ok _ => .ok (.ping none)
        | .error (.other m) => .error m
      else
        .ok (.unknown name)
  | _ => .error ("protocol error; expected an array frame")

/-- Outcome of `Command::apply` (src/src/cmd/mod.rs, lines 43-55) in normal
mode: the frames written to the connection and the resulting store, or entry
into the subscribe-mode loop (`Subscribe::apply`, whose long-running select
loop is not shallowly embeddable), or a bubbled error (`Err(..)` from
`apply`), or a panic inside the command. -/
inductive ApplyResult where
  | done (db : DbState) (written : List Frame)
  | enterSubscribeMode (db : DbState) (channels : List Key)
  | bubbledError (msg : String)
  | panicked

/-- The normal-mode dispatch of `Command::apply` together with each command
implementation in src/src/cmd/. `now` is the clock reading used by a `SET`
with an expiration.  `Unsubscribe` is the arm at src/src/cmd/mod.rs line 53:
it returns an error without writing anything. -/
def commandApply (db : DbState) (now : Nat) : Command → ApplyResult
  | .get key =>
    match dbGet db key with
    | some value => .done db [.bulk value]
    | none => .done db [.null]
  | .set key value expire => .done (dbSet db key value expire now).1 [.simple (strBytes ("OK"))]
  | .del keys => .done (dbDel db keys) [.simple (strBytes ("OK"))]
  | .publish channel _message =>
    match dbPublish db channel with
    | some n => .done db [.integer n]
    | none => .panicked
  | .subscribe channels => .enterSubscribeMode db channels
  | .unsubscribe _ => .bubbledError ("`Unsubscribe` is unsupported in this context")
  | .ping msg =>
    match msg with
    | some m => .done db [.bulk m]
    | none => .done db [.simple (strBytes ("PONG"))]
  | .unknown name =>
    .done db [.error (strBytes ("ERR unknown command ") ++ [39] ++ name ++ [39])]

/-- One step of `Handler::run` (src/src/server.rs, lines 247-284) on a
decoded request frame in normal mode: `terminated` means the `?` operator
propagated an error out of `run`, dropping the connection with the listed
frames (none) written for this request. -/
inductive HandlerStep where
  | continueNormal (db : DbState) (written : List Frame)
  | subscribeMode (db : DbState) (channels : List Key)
  | terminated (msg : String) (written : List Frame)
  | panicked

/-- The body of the `Handler::run` loop for one frame:
`Command::from_frame(frame)?` then `cmd.apply(..).await?`; either error
terminates the connection before any response frame is written. -/
def handlerStep (db : DbState) (now : Nat) (frame : Frame) : HandlerStep :=
  match commandFromFrame frame with
  | .error msg => .terminated msg []
  | .ok cmd =>
    match commandApply db now cmd with
    | .done db2 written => .continueNormal db2 written
    | .enterSubscribeMode db2 channels => .subscribeMode db2 channels
    | .bubbledError msg => .terminated msg []
    | .panicked => .panicked

/-- The `Server::accept` retry loop (src/src/server.rs, lines 214-233) under
the assumption that every accept attempt fails: returns how many consecutive
failed attempts happen before the error is returned, and the list of backoff
sleeps (in seconds) performed between them.  Each iteration doubles `backoff`
after sleeping; the loop returns the error when `backoff > 64`.  Fuel 16 is
ample: the loop runs 8 iterations. -/
def acceptFailTrace : Nat → Nat → Nat × List Nat
  | 0, _ => (0, [])
  | fuel + 1, backoff =>
    if backoff > 64 then (1, [])
    else
      let r := acceptFailTrace fuel (backoff * 2)
      (r.1 + 1, backoff :: r.2)

/-- The trace of `Server::accept` when accept fails on every attempt,
starting from the initial `backoff = 1`. -/
def serverAcceptAllFail : Nat × List Nat :=
  acceptFailTrace 16 1

/-- Text side condition on one flat frame: Simple and Error payloads must not
contain CR LF, or the line-oriented decoder cuts them short. -/
def flatTextOk : Frame → Bool
  | .simple s => !hasCrlf s
  | .error s => !hasCrlf s
  | _ => true

/-- Text side condition on an encodable frame (arrays check their items). -/
def textOk : Frame → Bool
  | .array items => items.all flatTextOk
  | f => flatTextOk f

/-- Well-formedness delivered by the Rust container types: the key table is a
`HashMap` (duplicate-free keys) and the expiration index a `BTreeSet`
(strictly sorted, hence duplicate-free). -/
def StateWF (s : DbState) : Prop :=
  (s.entries.map (fun p => p.1)).Nodup ∧
  List.Pairwise (fun p q => pairLtB p q = true) s.expirations

/-- The expiration-index invariant of spec section 3: a pair `(w, k)` is in
the index exactly when the entry currently mapped to `k` has
`expires_at = some w` (in a duplicate-free set, this is the conjunction of
the there-is-exactly-one direction and the converse direction). -/
def DbInv (s : DbState) : Prop :=
  ∀ w k, (w, k) ∈ s.expirations ↔
    ∃ e, lookupKey k s.entries = some e ∧ e.expires_at = some w

/-- The wire frame of an UNSUBSCRIBE command with the given channel list, as
a client sends it (array of bulk strings). -/
def unsubscribeFrame (channels : List Key) : Frame :=
  .array (.bulk (strBytes ("unsubscribe")) :: channels.map .bulk)

/-- A concrete one-entry store used as a test vector: key `a` holds value `v`
expiring at instant 5, with the matching pair in the expiration index. -/
def dbSingle : DbState :=
  { entries := [(strBytes ("a"), ⟨strBytes ("v"), some 5⟩)],
    pubSub := [],
    expirations := [(5, strBytes ("a"))],
    isShutdown := false }

/-! ### Lemmas about decimal digits and `atoi` -/

theorem digitsRevFuel_digits :
    ∀ fuel n, ∀ b ∈ digitsRevFuel fuel n, 48 ≤ b ∧ b ≤ 57
  | 0, _ => by simp [digitsRevFuel]
  | _ + 1, 0 => by simp [digitsRevFuel]
  | fuel + 1, n + 1 => by
    intro b hb
    simp only [digitsRevFuel, List.mem_cons] at hb
    rcases hb with h | h
    · subst h
      have : (n + 1) % 10 < 10 := Nat.mod_lt _ (by omega)
      omega
    · exact digitsRevFuel_digits fuel ((n + 1) / 10) b h

theorem decDigits_digits (n : Nat) : ∀ b ∈ decDigits n, 48 ≤ b ∧ b ≤ 57 := by
  intro b hb
  unfold decDigits at hb
  by_cases h : n = 0
  · simp [h] at hb
    omega
  · simp [h, List.mem_reverse] at hb
    exact digitsRevFuel_digits n n b hb

theorem decDigits_ne_nil (n : Nat) : decDigits n ≠ [] := by
  unfold decDigits
  by_cases h : n = 0
  · simp [h]
  · obtain ⟨m, rfl⟩ : ∃ m, n = m + 1 := ⟨n - 1, by omega⟩
    simp [digitsRevFuel]

theorem atoiAcc_append (l1 l2 : List Nat) (h : ∀ b ∈ l1, 48 ≤ b ∧ b ≤ 57) :
    ∀ acc, atoiAcc (l1 ++ l2) acc = atoiAcc l2 (atoiAcc l1 acc) := by
  induction l1 with
  | nil => intro acc; rfl
  | cons b rest ih =>
    intro acc
    have hb : 48 ≤ b ∧ b ≤ 57 := h b (by simp)
    simp only [List.cons_append, atoiAcc, if_pos hb]
    exact ih (fun x hx => h x (by simp [hx])) _

theorem atoiAcc_digitsRevFuel :
    ∀ fuel n, n ≤ fuel → ∀ acc,
      atoiAcc ((digitsRevFuel fuel n).reverse) acc =
        acc * 10 ^ (digitsRevFuel fuel n).length + n
  | 0, n, h => by
    intro acc
    have hn : n = 0 := by omega
    simp [hn, digitsRevFuel, atoiAcc]
  | _ + 1, 0, _ => by
    intro acc
    simp [digitsRevFuel, atoiAcc]
  | fuel + 1, n + 1, h => by
    intro acc
    have hdiv : (n + 1) / 10 ≤ fuel := by
      have h1 : (n + 1) / 10 < n + 1 := Nat.div_lt_self (by omega) (by omega)
      omega
    have hdig : 48 ≤ (n + 1) % 10 + 48 ∧ (n + 1) % 10 + 48 ≤ 57 := by
      have h2 : (n + 1) % 10 < 10 := Nat.mod_lt _ (by omega)
      omega
    simp only [digitsRevFuel, List.reverse_cons, List.length_cons]
    rw [atoiAcc_append _ _
      (fun b hb => digitsRevFuel_digits fuel ((n + 1) / 10) b (List.mem_reverse.mp hb))]
    rw [atoiAcc_digitsRevFuel fuel ((n + 1) / 10) hdiv acc]
    simp only [atoiAcc, if_pos hdig]
    have hsub : (n + 1) % 10 + 48 - 48 = (n + 1) % 10 := by omega
    rw [hsub, pow_succ]
    generalize (10 : Nat) ^ (digitsRevFuel fuel ((n + 1) / 10)).length = P
    have key : (n + 1) / 10 * 10 + (n + 1) % 10 = n + 1 := by omega
    calc (acc * P + (n + 1) / 10) * 10 + (n + 1) % 10
        = acc * (P * 10) + ((n + 1) / 10 * 10 + (n + 1) % 10) := by ring
      _ = acc * (P * 10) + (n + 1) := by rw [key]

theorem atoi_all_digits (l : List Nat) (hne : l ≠ [])
    (h : ∀ b ∈ l, 48 ≤ b ∧ b ≤ 57) : atoi l = some (atoiAcc l 0) := by
  match l, hne with
  | b :: rest, _ =>
    have hb : 48 ≤ b ∧ b ≤ 57 := h b (by simp)
    simp [atoi, hb]

theorem atoi_decDigits (n : Nat) : atoi (decDigits n) = some n := by
  by_cases h : n = 0
  · subst h; rfl
  · rw [atoi_all_digits _ (decDigits_ne_nil n) (decDigits_digits n)]
    unfold decDigits
    rw [if_neg h]
    rw [atoiAcc_digitsRevFuel n n (le_refl n) 0]
    simp

/-- Unfolding equation for `hasCrlf` on a list of length at least two. -/
theorem hasCrlf_cons_cons (a b : Nat) (rest : List Nat) :
    hasCrlf (a :: b :: rest) = if a = 13 ∧ b = 10 then true else hasCrlf (b :: rest) := rfl

theorem hasCrlf_cons_false {a : Nat} {l : List Nat}
    (h : hasCrlf (a :: l) = false) : hasCrlf l = false := by
  cases l with
  | nil => rfl
  | cons c rest =>
    rw [hasCrlf_cons_cons] at h
    by_cases hc : a = 13 ∧ c = 10
    · rw [if_pos hc] at h
      exact absurd h (by simp)
    · rwa [if_neg hc] at h

theorem hasCrlf_false_of_no13 :
    ∀ l : List Nat, (∀ b ∈ l, b ≠ 13) → hasCrlf l = false
  | [], _ => rfl
  | [_], _ => rfl
  | a :: b :: rest, h => by
    have ha : a ≠ 13 := h a (by simp)
    rw [hasCrlf_cons_cons, if_neg (by tauto)]
    exact hasCrlf_false_of_no13 (b :: rest) (fun x hx => h x (by simp at hx ⊢; tauto))

theorem hasCrlf_decDigits (n : Nat) : hasCrlf (decDigits n) = false := by
  refine hasCrlf_false_of_no13 _ (fun b hb => ?_)
  have hd := decDigits_digits n b hb
  omega

/-! ### Lemmas about the line scanner -/

theorem getD_append_len (pre l : List Nat) (k : Nat) :
    (pre ++ l).getD (pre.length + k) 0 = l.getD k 0 := by
  induction pre with
  | nil => simp
  | cons a rest ih =>
    have hshift : rest.length + 1 + k = (rest.length + k) + 1 := by omega
    simp only [List.cons_append, List.length_cons, hshift, List.getD_cons_succ]
    exact ih

theorem findCrlfFrom_step (buf : List Nat) (stop i : Nat) :
    findCrlfFrom buf stop i =
      if i < stop then
        (if buf.getD i 0 = 13 ∧ buf.getD (i + 1) 0 = 10 then some i
         else findCrlfFrom buf stop (i + 1))
      else none := by
  unfold findCrlfFrom
  by_cases h : i < stop
  · have hn : stop - i = (stop - (i + 1)) + 1 := by omega
    rw [if_pos h, hn]
    rfl
  · have hn : stop - i = 0 := by omega
    rw [if_neg h, hn]
    rfl

theorem findCrlf_exact :
    ∀ (line pre rest buf : List Nat) (stop i j : Nat),
      hasCrlf line = false →
      buf = pre ++ line ++ 13 :: 10 :: rest →
      stop = pre.length + line.length + 1 + rest.length →
      i = pre.length → j = pre.length + line.length →
      findCrlfFrom buf stop i = some j
  | [], pre, rest, buf, stop, i, j, _, hbuf, hstop, hi, hj => by
    subst hbuf hstop hi hj
    rw [findCrlfFrom_step]
    have h1 : pre.length < pre.length + List.length ([] : List Nat) + 1 + rest.length := by
      omega
    rw [if_pos h1]
    have h13 : (pre ++ [] ++ 13 :: 10 :: rest).getD pre.length 0 = 13 := by
      simpa using getD_append_len pre (13 :: 10 :: rest) 0
    have h10 : (pre ++ [] ++ 13 :: 10 :: rest).getD (pre.length + 1) 0 = 10 := by
      simpa using getD_append_len pre (13 :: 10 :: rest) 1
    rw [if_pos ⟨h13, h10⟩]
    simp
  | b :: line2, pre, rest, buf, stop, i, j, h, hbuf, hstop, hi, hj => by
    subst hbuf hstop hi hj
    rw [findCrlfFrom_step]
    have h1 : pre.length < pre.length + (b :: line2).length + 1 + rest.length := by
      simp only [List.length_cons]
      omega
    rw [if_pos h1]
    have hb : (pre ++ (b :: line2) ++ 13 :: 10 :: rest).getD pre.length 0 = b := by
      simpa using getD_append_len pre ((b :: line2) ++ 13 :: 10 :: rest) 0
    have hcond : ¬((pre ++ (b :: line2) ++ 13 :: 10 :: rest).getD pre.length 0 = 13 ∧
        (pre ++ (b :: line2) ++ 13 :: 10 :: rest).getD (pre.length + 1) 0 = 10) := by
      cases line2 with
      | nil =>
        have hnext : (pre ++ [b] ++ 13 :: 10 :: rest).getD (pre.length + 1) 0 = 13 := by
          have h2 := getD_append_len (pre ++ [b]) (13 :: 10 :: rest) 0
          simpa [List.append_assoc] using h2
        rw [hb, hnext]
        omega
      | cons c line3 =>
        have hnext :
            (pre ++ (b :: c :: line3) ++ 13 :: 10 :: rest).getD (pre.length + 1) 0 = c := by
          have h2 := getD_append_len (pre ++ [b]) ((c :: line3) ++ 13 :: 10 :: rest) 0
          simpa [List.append_assoc] using h2
        rw [hb, hnext]
        intro hc
        rw [hasCrlf_cons_cons, if_pos hc] at h
        exact absurd h (by simp)
    rw [if_neg hcond]
    refine findCrlf_exact line2 (pre ++ [b]) rest _ _ _ _
      (hasCrlf_cons_false h) (by simp) ?_ (by simp) ?_
    · simp only [List.length_append, List.length_cons, List.length_nil]
      omega
    · simp only [List.length_append, List.length_cons, List.length_nil]
      omega

theorem getLine_spec (pre line rest : List Nat) (h : hasCrlf line = false) :
    getLine ⟨pre ++ line ++ 13 :: 10 :: rest, pre.length⟩ =
      .ok (line, pre.length + line.length + 2) := by
  have hfind : findCrlfFrom (pre ++ line ++ 13 :: 10 :: rest)
      ((pre ++ line ++ 13 :: 10 :: rest).length - 1) pre.length =
      some (pre.length + line.length) := by
    refine findCrlf_exact line pre rest _ _ _ _ h rfl ?_ rfl rfl
    simp only [List.length_append, List.length_cons]
    omega
  simp only [getLine, hfind]
  have harith : pre.length + line.length - pre.length = line.length := by omega
  rw [harith, List.append_assoc, List.drop_left, List.take_left]

theorem getDecimal_spec (pre rest : List Nat) (n : Nat) :
    getDecimal ⟨pre ++ decDigits n ++ 13 :: 10 :: rest, pre.length⟩ =
      .ok (n, pre.length + (decDigits n).length + 2) := by
  simp only [getDecimal, getLine_spec pre (decDigits n) rest (hasCrlf_decDigits n),
    atoi_decDigits n]
/-! ### Cursor helper lemmas -/

theorem getU8_cons (pre : List Nat) (b : Nat) (suffix : List Nat) :
    getU8 ⟨pre ++ b :: suffix, pre.length⟩ = .ok (b, pre.length + 1) := by
  have hlt : pre.length < (pre ++ b :: suffix).length := by
    simp only [List.length_append, List.length_cons]
    omega
  have hg : (pre ++ b :: suffix).getD pre.length 0 = b := by
    simpa using getD_append_len pre (b :: suffix) 0
  simp only [getU8]
  rw [if_pos hlt, hg]

theorem peekU8_cons (pre : List Nat) (b : Nat) (suffix : List Nat) :
    peekU8 ⟨pre ++ b :: suffix, pre.length⟩ = .ok b := by
  have hlt : pre.length < (pre ++ b :: suffix).length := by
    simp only [List.length_append, List.length_cons]
    omega
  have hg : (pre ++ b :: suffix).getD pre.length 0 = b := by
    simpa using getD_append_len pre (b :: suffix) 0
  simp only [peekU8]
  rw [if_pos hlt, hg]

theorem skipN_spec (buf : List Nat) (p n : Nat) (h : p + n ≤ buf.length) :
    skipN ⟨buf, p⟩ n = .ok (p + n) := by
  have hc : n ≤ buf.length - p := by omega
  simp [skipN, hc]

/-- Head digit of a canonical decimal rendering. -/
theorem decDigits_head (n : Nat) :
    ∃ d0 dtl, decDigits n = d0 :: dtl ∧ 48 ≤ d0 ∧ d0 ≤ 57 := by
  match hd : decDigits n with
  | [] => exact absurd hd (decDigits_ne_nil n)
  | d0 :: dtl =>
    have hdig := decDigits_digits n d0 (by rw [hd]; simp)
    exact ⟨d0, dtl, rfl, hdig.1, hdig.2⟩

/-! ### The check pass on encoder output, one flat variant at a time -/

theorem checkF_simple (fuel : Nat) (s pre rest : List Nat) (hs : hasCrlf s = false) :
    checkF (fuel + 1) ⟨pre ++ (43 :: s ++ [13, 10]) ++ rest, pre.length⟩ =
      .ok (pre.length + (43 :: s ++ [13, 10]).length) := by
  have hline := getLine_spec (pre ++ [43]) s rest hs
  simp only [List.append_assoc, List.cons_append, List.nil_append, List.length_append,
    List.length_cons, List.length_nil, Nat.zero_add, Nat.add_zero] at hline ⊢
  simp [checkF, getU8_cons, hline]
  omega

theorem checkF_error_frame (fuel : Nat) (s pre rest : List Nat) (hs : hasCrlf s = false) :
    checkF (fuel + 1) ⟨pre ++ (45 :: s ++ [13, 10]) ++ rest, pre.length⟩ =
      .ok (pre.length + (45 :: s ++ [13, 10]).length) := by
  have hline := getLine_spec (pre ++ [45]) s rest hs
  simp only [List.append_assoc, List.cons_append, List.nil_append, List.length_append,
    List.length_cons, List.length_nil, Nat.zero_add, Nat.add_zero] at hline ⊢
  simp [checkF, getU8_cons, hline]
  omega

theorem checkF_integer (fuel : Nat) (n : Nat) (pre rest : List Nat) :
    checkF (fuel + 1) ⟨pre ++ (58 :: decDigits n ++ [13, 10]) ++ rest, pre.length⟩ =
      .ok (pre.length + (58 :: decDigits n ++ [13, 10]).length) := by
  have hdec := getDecimal_spec (pre ++ [58]) rest n
  simp only [List.append_assoc, List.cons_append, List.nil_append, List.length_append,
    List.length_cons, List.length_nil, Nat.zero_add, Nat.add_zero] at hdec ⊢
  simp [checkF, getU8_cons, hdec]
  omega

theorem checkF_null (fuel : Nat) (pre rest : List Nat) :
    checkF (fuel + 1) ⟨pre ++ [36, 45, 49, 13, 10] ++ rest, pre.length⟩ =
      .ok (pre.length + 5) := by
  have hpeek := peekU8_cons (pre ++ [36]) 45 (49 :: 13 :: 10 :: rest)
  simp only [List.append_assoc, List.cons_append, List.nil_append, List.length_append,
    List.length_cons, List.length_nil, Nat.zero_add, Nat.add_zero] at hpeek ⊢
  have hskip : skipN ⟨pre ++ 36 :: 45 :: 49 :: 13 :: 10 :: rest, pre.length + 1⟩ 4 =
      .ok (pre.length + 1 + 4) := by
    refine skipN_spec _ _ _ ?_
    simp only [List.length_append, List.length_cons]
    omega
  simp [checkF, getU8_cons, hpeek, hskip]

theorem checkF_bulk (fuel : Nat) (b pre rest : List Nat) :
    checkF (fuel + 1)
        ⟨pre ++ (36 :: decDigits b.length ++ [13, 10] ++ b ++ [13, 10]) ++ rest, pre.length⟩ =
      .ok (pre.length + (36 :: decDigits b.length ++ [13, 10] ++ b ++ [13, 10]).length) := by
  obtain ⟨d0, dtl, hd, hd48, hd57⟩ := decDigits_head b.length
  have hdec := getDecimal_spec (pre ++ [36]) (b ++ 13 :: 10 :: rest) b.length
  rw [hd] at hdec ⊢
  have hne45 : d0 ≠ 45 := by omega
  simp only [List.append_assoc, List.cons_append, List.nil_append, List.length_append,
    List.length_cons, List.length_nil, Nat.zero_add, Nat.add_zero] at hdec ⊢
  have hskip : skipN ⟨pre ++ 36 :: d0 :: (dtl ++ 13 :: 10 :: (b ++ 13 :: 10 :: rest)),
      pre.length + 1 + (dtl.length + 1) + 2⟩ (b.length + 2) =
      .ok (pre.length + 1 + (dtl.length + 1) + 2 + (b.length + 2)) := by
    refine skipN_spec _ _ _ ?_
    simp only [List.length_append, List.length_cons]
    omega
  have hpeek := peekU8_cons (pre ++ [36]) d0 (dtl ++ 13 :: 10 :: (b ++ 13 :: 10 :: rest))
  simp only [List.append_assoc, List.cons_append, List.nil_append, List.length_append,
    List.length_cons, List.length_nil, Nat.zero_add, Nat.add_zero] at hpeek
  simp [checkF, getU8_cons, hpeek, hne45, hdec, hskip]
  omega

theorem drop_at_len (pre suffix : List Nat) (p : Nat) (hp : p = pre.length) :
    (pre ++ suffix).drop p = suffix := by
  subst hp
  exact List.drop_left pre suffix

/-! ### The parse pass on encoder output, one flat variant at a time -/

theorem parseF_simple (fuel : Nat) (s pre rest : List Nat) (hs : hasCrlf s = false) :
    parseF (fuel + 1) ⟨pre ++ (43 :: s ++ [13, 10]) ++ rest, pre.length⟩ =
      some (.simple s, pre.length + (43 :: s ++ [13, 10]).length) := by
  have hline := getLine_spec (pre ++ [43]) s rest hs
  simp only [List.append_assoc, List.cons_append, List.nil_append, List.length_append,
    List.length_cons, List.length_nil, Nat.zero_add, Nat.add_zero] at hline ⊢
  simp [parseF, getU8_cons, hline]
  omega

theorem parseF_error_frame (fuel : Nat) (s pre rest : List Nat) (hs : hasCrlf s = false) :
    parseF (fuel + 1) ⟨pre ++ (45 :: s ++ [13, 10]) ++ rest, pre.length⟩ =
      some (.error s, pre.length + (45 :: s ++ [13, 10]).length) := by
  have hline := getLine_spec (pre ++ [45]) s rest hs
  simp only [List.append_assoc, List.cons_append, List.nil_append, List.length_append,
    List.length_cons, List.length_nil, Nat.zero_add, Nat.add_zero] at hline ⊢
  simp [parseF, getU8_cons, hline]
  omega

theorem parseF_integer (fuel : Nat) (n : Nat) (pre rest : List Nat) :
    parseF (fuel + 1) ⟨pre ++ (58 :: decDigits n ++ [13, 10]) ++ rest, pre.length⟩ =
      some (.integer n, pre.length + (58 :: decDigits n ++ [13, 10]).length) := by
  have hdec := getDecimal_spec (pre ++ [58]) rest n
  simp only [List.append_assoc, List.cons_append, List.nil_append, List.length_append,
    List.length_cons, List.length_nil, Nat.zero_add, Nat.add_zero] at hdec ⊢
  simp [parseF, getU8_cons, hdec]
  omega

theorem parseF_null (fuel : Nat) (pre rest : List Nat) :
    parseF (fuel + 1) ⟨pre ++ [36, 45, 49, 13, 10] ++ rest, pre.length⟩ =
      some (.null, pre.length + 5) := by
  have hpeek := peekU8_cons (pre ++ [36]) 45 (49 :: 13 :: 10 :: rest)
  have hline := getLine_spec (pre ++ [36]) [45, 49] rest (by rfl)
  simp only [List.append_assoc, List.cons_append, List.nil_append, List.length_append,
    List.length_cons, List.length_nil, Nat.zero_add, Nat.add_zero] at hpeek hline ⊢
  simp [parseF, getU8_cons, hpeek, hline]

theorem parseF_bulk (fuel : Nat) (b pre rest : List Nat) :
    parseF (fuel + 1)
        ⟨pre ++ (36 :: decDigits b.length ++ [13, 10] ++ b ++ [13, 10]) ++ rest, pre.length⟩ =
      some (.bulk b,
        pre.length + (36 :: decDigits b.length ++ [13, 10] ++ b ++ [13, 10]).length) := by
  obtain ⟨d0, dtl, hd, hd48, hd57⟩ := decDigits_head b.length
  have hdec := getDecimal_spec (pre ++ [36]) (b ++ 13 :: 10 :: rest) b.length
  rw [hd] at hdec ⊢
  have hne45 : d0 ≠ 45 := by omega
  simp only [List.append_assoc, List.cons_append, List.nil_append, List.length_append,
    List.length_cons, List.length_nil, Nat.zero_add, Nat.add_zero] at hdec ⊢
  have hskip : skipN ⟨pre ++ 36 :: d0 :: (dtl ++ 13 :: 10 :: (b ++ 13 :: 10 :: rest)),
      pre.length + 1 + (dtl.length + 1) + 2⟩ (b.length + 2) =
      .ok (pre.length + 1 + (dtl.length + 1) + 2 + (b.length + 2)) := by
    refine skipN_spec _ _ _ ?_
    simp only [List.length_append, List.length_cons]
    omega
  have hpeek := peekU8_cons (pre ++ [36]) d0 (dtl ++ 13 :: 10 :: (b ++ 13 :: 10 :: rest))
  simp only [List.append_assoc, List.cons_append, List.nil_append, List.length_append,
    List.length_cons, List.length_nil, Nat.zero_add, Nat.add_zero] at hpeek
  have hdrop : (pre ++ 36 :: d0 :: (dtl ++ 13 :: 10 :: (b ++ 13 :: 10 :: rest))).drop
      (pre.length + 1 + (dtl.length + 1) + 2) = b ++ 13 :: 10 :: rest := by
    have h0 := drop_at_len (pre ++ 36 :: d0 :: (dtl ++ [13, 10])) (b ++ 13 :: 10 :: rest)
      (pre.length + 1 + (dtl.length + 1) + 2)
      (by
        simp only [List.length_append, List.length_cons, List.length_nil]
        omega)
    simpa [List.append_assoc, List.cons_append, List.nil_append] using h0
  simp [parseF, getU8_cons, hpeek, hne45, hdec, hskip, hdrop, List.take_left]
  omega

/-! ### Check and parse of any flat frame, and of item sequences -/

theorem checkF_writeValue (fuel : Nat) (f : Frame) (e pre rest : List Nat)
    (he : writeValue f = some e) (ht : flatTextOk f = true) :
    checkF (fuel + 1) ⟨pre ++ e ++ rest, pre.length⟩ = .ok (pre.length + e.length) := by
  cases f with
  | simple s =>
    simp only [writeValue, Option.some.injEq] at he
    subst he
    exact checkF_simple fuel s pre rest (by simpa [flatTextOk] using ht)
  | error s =>
    simp only [writeValue, Option.some.injEq] at he
    subst he
    exact checkF_error_frame fuel s pre rest (by simpa [flatTextOk] using ht)
  | integer n =>
    simp only [writeValue, Option.some.injEq] at he
    subst he
    exact checkF_integer fuel n pre rest
  | null =>
    simp only [writeValue, Option.some.injEq] at he
    subst he
    simpa using checkF_null fuel pre rest
  | bulk b =>
    simp only [writeValue, Option.some.injEq] at he
    subst he
    exact checkF_bulk fuel b pre rest
  | array items => simp [writeValue] at he

theorem parseF_writeValue (fuel : Nat) (f : Frame) (e pre rest : List Nat)
    (he : writeValue f = some e) (ht : flatTextOk f = true) :
    parseF (fuel + 1) ⟨pre ++ e ++ rest, pre.length⟩ = some (f, pre.length + e.length) := by
  cases f with
  | simple s =>
    simp only [writeValue, Option.some.injEq] at he
    subst he
    exact parseF_simple fuel s pre rest (by simpa [flatTextOk] using ht)
  | error s =>
    simp only [writeValue, Option.some.injEq] at he
    subst he
    exact parseF_error_frame fuel s pre rest (by simpa [flatTextOk] using ht)
  | integer n =>
    simp only [writeValue, Option.some.injEq] at he
    subst he
    exact parseF_integer fuel n pre rest
  | null =>
    simp only [writeValue, Option.some.injEq] at he
    subst he
    simpa using parseF_null fuel pre rest
  | bulk b =>
    simp only [writeValue, Option.some.injEq] at he
    subst he
    exact parseF_bulk fuel b pre rest
  | array items => simp [writeValue] at he

theorem checkMany_items :
    ∀ (items : List Frame) (body pre rest : List Nat) (fuel : Nat),
      writeItems items = some body → (∀ f ∈ items, flatTextOk f = true) →
      checkMany (checkF (fuel + 1)) items.length ⟨pre ++ body ++ rest, pre.length⟩ =
        .ok (pre.length + body.length)
  | [], body, pre, rest, fuel, hb, _ => by
    simp only [writeItems, Option.some.injEq] at hb
    subst hb
    simp [checkMany]
  | f :: items2, body, pre, rest, fuel, hb, ht => by
    cases hwv : writeValue f with
    | none => simp [writeItems, hwv] at hb
    | some e =>
      cases hwi : writeItems items2 with
      | none => simp [writeItems, hwv, hwi] at hb
      | some es =>
        simp only [writeItems, hwv, hwi, Option.some.injEq] at hb
        subst hb
        have hcf := checkF_writeValue fuel f e pre (es ++ rest) hwv (ht f (by simp))
        have hrec := checkMany_items items2 es (pre ++ e) rest fuel hwi
          (fun g hg => ht g (by simp [hg]))
        simp only [List.append_assoc, List.length_append] at hcf hrec ⊢
        simp [checkMany, hcf, hrec]
        omega

theorem parseMany_items :
    ∀ (items : List Frame) (body pre rest : List Nat) (fuel : Nat),
      writeItems items = some body → (∀ f ∈ items, flatTextOk f = true) →
      parseMany (parseF (fuel + 1)) items.length ⟨pre ++ body ++ rest, pre.length⟩ =
        some (items, pre.length + body.length)
  | [], body, pre, rest, fuel, hb, _ => by
    simp only [writeItems, Option.some.injEq] at hb
    subst hb
    simp [parseMany]
  | f :: items2, body, pre, rest, fuel, hb, ht => by
    cases hwv : writeValue f with
    | none => simp [writeItems, hwv] at hb
    | some e =>
      cases hwi : writeItems items2 with
      | none => simp [writeItems, hwv, hwi] at hb
      | some es =>
        simp only [writeItems, hwv, hwi, Option.some.injEq] at hb
        subst hb
        have hpf := parseF_writeValue fuel f e pre (es ++ rest) hwv (ht f (by simp))
        have hrec := parseMany_items items2 es (pre ++ e) rest fuel hwi
          (fun g hg => ht g (by simp [hg]))
        simp only [List.append_assoc, List.length_append] at hpf hrec ⊢
        simp [parseMany, hpf, hrec]
        omega

theorem getU8_zero (b : Nat) (suffix : List Nat) : getU8 ⟨b :: suffix, 0⟩ = .ok (b, 1) := by
  simpa using getU8_cons [] b suffix

theorem writeFrame_pos (f : Frame) (e : List Nat) (he : writeFrame f = some e) :
    1 ≤ e.length := by
  cases f with
  | array items =>
    cases hwi : writeItems items with
    | none => simp [writeFrame, hwi] at he
    | some body =>
      simp only [writeFrame, hwi, Option.some.injEq] at he
      subst he
      simp
  | simple s =>
    simp only [writeFrame, writeValue, Option.some.injEq] at he
    subst he
    simp
  | error s =>
    simp only [writeFrame, writeValue, Option.some.injEq] at he
    subst he
    simp
  | integer n =>
    simp only [writeFrame, writeValue, Option.some.injEq] at he
    subst he
    simp
  | null =>
    simp only [writeFrame, writeValue, Option.some.injEq] at he
    subst he
    simp
  | bulk b =>
    simp only [writeFrame, writeValue, Option.some.injEq] at he
    subst he
    simp

theorem checkF_writeFrame (fuel : Nat) (f : Frame) (e : List Nat)
    (he : writeFrame f = some e) (ht : textOk f = true) (hf : 1 ≤ fuel) :
    checkF (fuel + 1) ⟨e, 0⟩ = .ok e.length := by
  cases f with
  | array items =>
    cases hwi : writeItems items with
    | none => simp [writeFrame, hwi] at he
    | some body =>
      simp only [writeFrame, hwi, Option.some.injEq] at he
      subst he
      obtain ⟨m, rfl⟩ : ∃ m, fuel = m + 1 := ⟨fuel - 1, by omega⟩
      have hflat : ∀ g ∈ items, flatTextOk g = true := by
        simpa [textOk, List.all_eq_true] using ht
      have hdec := getDecimal_spec [42] body items.length
      have hcm := checkMany_items items body (42 :: decDigits items.length ++ [13, 10]) [] m
        hwi hflat
      simp only [List.append_assoc, List.cons_append, List.nil_append, List.append_nil,
        List.length_append, List.length_cons, List.length_nil, Nat.zero_add,
        Nat.add_zero] at hdec hcm ⊢
      simp [checkF, getU8_zero, hdec]
      simp only [checkF] at hcm
      have hP : (1 : Nat) + (decDigits items.length).length + 2 =
          (decDigits items.length).length + (1 + 1) + 1 := by omega
      rw [hP, hcm]
      simp
      all_goals omega
  | simple s => simpa using checkF_writeValue fuel (.simple s) e [] [] he ht
  | error s => simpa using checkF_writeValue fuel (.error s) e [] [] he ht
  | integer n => simpa using checkF_writeValue fuel (.integer n) e [] [] he ht
  | null => simpa using checkF_writeValue fuel .null e [] [] he ht
  | bulk b => simpa using checkF_writeValue fuel (.bulk b) e [] [] he ht

theorem parseF_writeFrame (fuel : Nat) (f : Frame) (e : List Nat)
    (he : writeFrame f = some e) (ht : textOk f = true) (hf : 1 ≤ fuel) :
    parseF (fuel + 1) ⟨e, 0⟩ = some (f, e.length) := by
  cases f with
  | array items =>
    cases hwi : writeItems items with
    | none => simp [writeFrame, hwi] at he
    | some body =>
      simp only [writeFrame, hwi, Option.some.injEq] at he
      subst he
      obtain ⟨m, rfl⟩ : ∃ m, fuel = m + 1 := ⟨fuel - 1, by omega⟩
      have hflat : ∀ g ∈ items, flatTextOk g = true := by
        simpa [textOk, List.all_eq_true] using ht
      have hdec := getDecimal_spec [42] body items.length
      have hpm := parseMany_items items body (42 :: decDigits items.length ++ [13, 10]) [] m
        hwi hflat
      simp only [List.append_assoc, List.cons_append, List.nil_append, List.append_nil,
        List.length_append, List.length_cons, List.length_nil, Nat.zero_add,
        Nat.add_zero] at hdec hpm ⊢
      simp [parseF, getU8_zero, hdec]
      simp only [parseF] at hpm
      have hP : (1 : Nat) + (decDigits items.length).length + 2 =
          (decDigits items.length).length + (1 + 1) + 1 := by omega
      rw [hP, hpm]
      simp
      all_goals omega
  | simple s => simpa using parseF_writeValue fuel (.simple s) e [] [] he ht
  | error s => simpa using parseF_writeValue fuel (.error s) e [] [] he ht
  | integer n => simpa using parseF_writeValue fuel (.integer n) e [] [] he ht
  | null => simpa using parseF_writeValue fuel .null e [] [] he ht
  | bulk b => simpa using parseF_writeValue fuel (.bulk b) e [] [] he ht

/-! ### Claim C5 -/

/-- C5, counterexample.  The claim says that for every Frame the encoder can
produce, decoding the encoder output (check pass then parse pass) yields an
equal Frame and consumes exactly the encoded bytes.  The encoder happily
encodes `Simple "\r\n"` as the five bytes `+ CR LF CR LF`, but the check pass
stops after three bytes and the parse pass returns `Simple ""`: the line
scanner cuts the payload at its first CR LF.  So the claim as stated is
false. -/
theorem c5_roundtrip_counterexample :
    writeFrame (Frame.simple [13, 10]) = some [43, 13, 10, 13, 10] ∧
    frameCheck [43, 13, 10, 13, 10] = .ok 3 ∧
    frameParse [43, 13, 10, 13, 10] = some (Frame.simple [], 3) ∧
    ¬(frameParse [43, 13, 10, 13, 10] = some (Frame.simple [13, 10], 5)) := by
  refine ⟨rfl, rfl, rfl, fun h => ?_⟩
  have h2 : some (Frame.simple ([] : List Nat), (3 : Nat)) =
      some (Frame.simple [13, 10], 5) := h
  simp at h2

/-- C5, amended claim: for every Frame F constructible by the encoder (flat
variants and arrays of flat variants) whose Simple and Error payloads contain
no CR LF byte pair, decoding the exact byte sequence the encoder produces for
F (check pass followed by parse pass) yields a Frame equal to F and consumes
exactly those bytes. -/
theorem c5_roundtrip_no_crlf (f : Frame) (e : List Nat)
    (ht : textOk f = true) (he : writeFrame f = some e) :
    frameCheck e = .ok e.length ∧ frameParse e = some (f, e.length) := by
  have hpos := writeFrame_pos f e he
  exact ⟨checkF_writeFrame e.length f e he ht (by omega),
    parseF_writeFrame e.length f e he ht (by omega)⟩

/-- C5, witness: the amended round-trip at a concrete array frame holding one
of each flat variant (the Bulk payload even contains a CR LF, which is fine
because Bulk is length-prefixed). -/
theorem c5_roundtrip_witness :
    textOk (Frame.array [.simple [79, 75], .integer 1024, .bulk [13, 10, 0], .null]) = true ∧
    frameCheck [42, 52, 13, 10, 43, 79, 75, 13, 10, 58, 49, 48, 50, 52, 13, 10, 36, 51,
        13, 10, 13, 10, 0, 13, 10, 36, 45, 49, 13, 10] =
      .ok ([42, 52, 13, 10, 43, 79, 75, 13, 10, 58, 49, 48, 50, 52, 13, 10, 36, 51,
        13, 10, 13, 10, 0, 13, 10, 36, 45, 49, 13, 10] : List Nat).length ∧
    frameParse [42, 52, 13, 10, 43, 79, 75, 13, 10, 58, 49, 48, 50, 52, 13, 10, 36, 51,
        13, 10, 13, 10, 0, 13, 10, 36, 45, 49, 13, 10] =
      some (Frame.array [.simple [79, 75], .integer 1024, .bulk [13, 10, 0], .null],
        ([42, 52, 13, 10, 43, 79, 75, 13, 10, 58, 49, 48, 50, 52, 13, 10, 36, 51,
        13, 10, 13, 10, 0, 13, 10, 36, 45, 49, 13, 10] : List Nat).length) := by
  refine ⟨by decide, c5_roundtrip_no_crlf _ _ (by decide) (by rfl)⟩

/-! ### Claim C10 -/

/-- C10: for every buffer that begins with the dollar byte, the decimal
digits of `n`, CR LF, and then at least `n + 2` further bytes, the check pass
accepts the frame and the parse pass returns Bulk of the first `n` payload
bytes, regardless of the values of the two bytes following the payload: the
terminating CR LF of a bulk string is skipped, never validated.  (`n` is kept
below `2 ^ 64` because the length travels through `u64`.) -/
theorem c10_bulk_terminator_skipped (n : Nat) (tail : List Nat)
    (hn : n < 2 ^ 64) (htail : n + 2 ≤ tail.length) :
    frameCheck (36 :: decDigits n ++ 13 :: 10 :: tail) =
      .ok (1 + (decDigits n).length + 2 + n + 2) ∧
    frameParse (36 :: decDigits n ++ 13 :: 10 :: tail) =
      some (.bulk (tail.take n), 1 + (decDigits n).length + 2 + n + 2) := by
  obtain ⟨d0, dtl, hd, hd48, hd57⟩ := decDigits_head n
  have hne45 : d0 ≠ 45 := by omega
  have hdec := getDecimal_spec [36] tail n
  rw [hd] at hdec ⊢
  simp only [List.append_assoc, List.cons_append, List.nil_append, List.length_append,
    List.length_cons, List.length_nil, Nat.zero_add, Nat.add_zero] at hdec ⊢
  have hpeek := peekU8_cons [36] d0 (dtl ++ 13 :: 10 :: tail)
  simp only [List.append_assoc, List.cons_append, List.nil_append, List.length_append,
    List.length_cons, List.length_nil, Nat.zero_add, Nat.add_zero] at hpeek
  have hskip : skipN ⟨36 :: d0 :: (dtl ++ 13 :: 10 :: tail), 1 + (dtl.length + 1) + 2⟩
      (n + 2) = .ok (1 + (dtl.length + 1) + 2 + (n + 2)) := by
    refine skipN_spec _ _ _ ?_
    simp only [List.length_append, List.length_cons]
    omega
  have hdrop : (36 :: d0 :: (dtl ++ 13 :: 10 :: tail)).drop (1 + (dtl.length + 1) + 2) =
      tail := by
    have h0 := drop_at_len (36 :: d0 :: (dtl ++ [13, 10])) tail (1 + (dtl.length + 1) + 2)
      (by
        simp only [List.length_append, List.length_cons, List.length_nil]
        omega)
    simpa [List.append_assoc, List.cons_append, List.nil_append] using h0
  constructor
  · simp [frameCheck, checkF, getU8_zero, hpeek, hne45, hdec, hskip]
    omega
  · simp [frameParse, parseF, getU8_zero, hpeek, hne45, hdec, hskip, hdrop]
    omega

/-- C10, witness: a one-byte bulk payload whose two terminator positions hold
the bytes 88 and 89 (not CR LF), followed by nothing else; the decoder still
accepts and returns the payload byte. -/
theorem c10_bulk_witness :
    frameCheck [36, 49, 13, 10, 65, 88, 89] = .ok 7 ∧
    frameParse [36, 49, 13, 10, 65, 88, 89] = some (.bulk [65], 7) := by
  have h := c10_bulk_terminator_skipped 1 [65, 88, 89] (by decide) (by decide)
  simpa using h

/-! ### Claim C1 -/

/-- C1: the claim states `Db::get` checks `expires_at` against the current
instant under the lock and filters out entries that are due.  The source
(src/src/db.rs lines 110-116) contains no such check: `get` takes no clock
reading at all and returns the stored data whenever the key is present.
Concretely, after `SET k v EX 5` at instant 0 the entry is due from
instant 5 on, yet `get` at instant 10 (or any other instant) still returns
the value because `dbGet` never consults `expires_at`.  This contradicts the
documentation of `get` itself, which says a previously assigned value that
has expired yields `None`. -/
theorem c1_get_returns_expired_entry :
    lookupKey [107] ((dbSet dbNew [107] [118] (some 5) 0).1).entries =
      some ⟨[118], some 5⟩ ∧
    (5 : Nat) ≤ 10 ∧
    dbGet (dbSet dbNew [107] [118] (some 5) 0).1 [107] = some [118] :=
  ⟨rfl, by omega, rfl⟩

/-! ### Claim C2 -/

/-- C2: the claim states `publish` returns 0 and does not fail when no
channel is registered under the name.  The source (src/src/db.rs lines
186-196) ends in `.unwrap()` on the `Option` returned by the channel lookup:
when the channel is absent the lookup is `None` and the unwrap panics
(modelled as `none`), despite the comment right above it saying 0 should be
returned.  When the channel exists, the send result unwraps to the live
receiver count, 0 included, as the claim says. -/
theorem c2_publish_panics_on_missing_channel :
    dbPublish dbNew [99] = none ∧
    dbPublish { dbNew with pubSub := [([99], 0)] } [99] = some 0 :=
  ⟨rfl, rfl⟩

/-! ### Claim C7 -/

/-- C7, counterexample.  The claim says the accept loop returns the error on
the seventh consecutive failure.  In the source (src/src/server.rs lines
214-233) the loop sleeps and doubles `backoff` after every failure while
`backoff ≤ 64`, so failures 1 through 7 are followed by sleeps of 1..64
seconds and only the eighth consecutive failure (with `backoff = 128 > 64`)
returns the error. -/
theorem c7_backoff_counterexample :
    serverAcceptAllFail.1 = 8 ∧ serverAcceptAllFail.1 ≠ 7 :=
  ⟨rfl, by decide⟩

/-- C7, amended claim: if accept fails on every attempt, the loop sleeps
1, 2, 4, 8, 16, 32, 64 seconds between consecutive failures and returns the
error on the eighth consecutive failure, aborting the accept loop. -/
theorem c7_backoff_eighth_failure :
    serverAcceptAllFail = (8, [1, 2, 4, 8, 16, 32, 64]) := rfl

/-! ### Claim C4 -/

theorem collectStrings_bulk : ∀ l : List Key, collectStrings (l.map .bulk) = .ok l
  | [] => rfl
  | k :: rest => by
    simp only [List.map_cons, collectStrings, collectStrings_bulk rest]
    rfl

/-- C4, counterexample.  The claim says a top-level UNSUBSCRIBE frame makes
the handler write an error response frame to the client and the connection
continues.  In the source, `Command::apply` (src/src/cmd/mod.rs line 53)
returns `Err(..)` for `Unsubscribe`, and `Handler::run` (src/src/server.rs
line 280) propagates that error with `?`, terminating the connection; no
frame is written.  Here, on a concrete UNSUBSCRIBE frame, the handler step
ends in `terminated` with an empty written list, and does not continue. -/
theorem c4_unsubscribe_counterexample :
    handlerStep dbNew 0 (unsubscribeFrame [[97]]) =
      .terminated ("`Unsubscribe` is unsupported in this context") [] ∧
    ¬∃ db2 written, handlerStep dbNew 0 (unsubscribeFrame [[97]]) =
      .continueNormal db2 written := by
  refine ⟨rfl, ?_⟩
  rintro ⟨db2, written, h⟩
  have h2 : HandlerStep.terminated ("`Unsubscribe` is unsupported in this context") [] =
      .continueNormal db2 written := h
  exact HandlerStep.noConfusion h2

/-- C4, amended claim: for every UNSUBSCRIBE command frame received by a
connection handler in normal mode, `Command::apply` returns an error that
`Handler::run` propagates, so the handler terminates that connection without
writing any response frame. -/
theorem c4_unsubscribe_terminates (channels : List Key) (db : DbState) (now : Nat) :
    handlerStep db now (unsubscribeFrame channels) =
      .terminated ("`Unsubscribe` is unsupported in this context") [] := by
  have hname : asciiLower (strBytes ("unsubscribe")) = strBytes ("unsubscribe") := by decide
  have hg : ¬(strBytes ("unsubscribe") = strBytes ("get")) := by decide
  have hs : ¬(strBytes ("unsubscribe") = strBytes ("set")) := by decide
  have hd : ¬(strBytes ("unsubscribe") = strBytes ("del")) := by decide
  have hp : ¬(strBytes ("unsubscribe") = strBytes ("publish")) := by decide
  have hb : ¬(strBytes ("unsubscribe") = strBytes ("subscribe")) := by decide
  have hcf : commandFromFrame (unsubscribeFrame channels) =
      .ok (.unsubscribe channels) := by
    simp [commandFromFrame, unsubscribeFrame, pNextString, collectStrings_bulk,
      hname, hg, hs, hd, hp, hb]
  simp [handlerStep, hcf, commandApply]

/-! ### Claim C8 -/

/-- C8: parsing a SET command frame whose option token is neither EX nor PX
under case-insensitive comparison (`to_uppercase`) yields an error instead of
a Set command, and the handler then terminates that connection (no response
frame is written); SET with no option parses with no expiration, and SET with
an EX token (any case) followed by an integer records `Duration::from_secs`
(1000 ms ticks per unit) while a PX token records `Duration::from_millis`. -/
theorem c8_set_option_parse (k v o oEx oPx : Key) (n : Nat) (db : DbState) (now : Nat)
    (ho : ¬(asciiUpper o = strBytes ("EX")) ∧ ¬(asciiUpper o = strBytes ("PX")))
    (hEx : asciiUpper oEx = strBytes ("EX")) (hPx : asciiUpper oPx = strBytes ("PX")) :
    setTryFrom [.bulk k, .bulk v, .bulk o] =
      .error ("currently `SET` only supports the expiration option") ∧
    handlerStep db now (.array [.bulk (strBytes ("set")), .bulk k, .bulk v, .bulk o]) =
      .terminated ("currently `SET` only supports the expiration option") [] ∧
    setTryFrom [.bulk k, .bulk v] = .ok (k, v, none, []) ∧
    setTryFrom [.bulk k, .bulk v, .bulk oEx, .integer n] = .ok (k, v, some (1000 * n), []) ∧
    setTryFrom [.bulk k, .bulk v, .bulk oPx, .integer n] = .ok (k, v, some n, []) := by
  have herr : setTryFrom [.bulk k, .bulk v, .bulk o] =
      .error ("currently `SET` only supports the expiration option") := by
    simp [setTryFrom, pNextString, pNextBytes, ho.1, ho.2]
  refine ⟨herr, ?_, ?_, ?_, ?_⟩
  · have hname : asciiLower (strBytes ("set")) = strBytes ("set") := by decide
    have hg : ¬(strBytes ("set") = strBytes ("get")) := by decide
    have hcf : commandFromFrame
        (.array [.bulk (strBytes ("set")), .bulk k, .bulk v, .bulk o]) =
        .error ("currently `SET` only supports the expiration option") := by
      simp [commandFromFrame, pNextString, hname, hg, herr]
    simp [handlerStep, hcf]
  · simp [setTryFrom, pNextString, pNextBytes]
  · simp [setTryFrom, pNextString, pNextBytes, pNextInt, hEx]
  · have hpxne : ¬(asciiUpper oPx = strBytes ("EX")) := by
      rw [hPx]
      decide
    simp [setTryFrom, pNextString, pNextBytes, pNextInt, hpxne, hPx]
    intro hcon
    exact absurd hcon (by decide)

/-- C8, witness: concrete instances — option token XX is rejected and kills
the connection, while mixed-case Ex and px are accepted with second and
millisecond durations. -/
theorem c8_set_option_witness :
    setTryFrom [.bulk [107], .bulk [118], .bulk [88, 88]] =
      .error ("currently `SET` only supports the expiration option") ∧
    handlerStep dbNew 0
        (.array [.bulk (strBytes ("set")), .bulk [107], .bulk [118], .bulk [88, 88]]) =
      .terminated ("currently `SET` only supports the expiration option") [] ∧
    setTryFrom [.bulk [107], .bulk [118]] = .ok ([107], [118], none, []) ∧
    setTryFrom [.bulk [107], .bulk [118], .bulk [69, 120], .integer 5] =
      .ok ([107], [118], some 5000, []) ∧
    setTryFrom [.bulk [107], .bulk [118], .bulk [112, 120], .integer 5] =
      .ok ([107], [118], some 5, []) := by
  have h := c8_set_option_parse [107] [118] [88, 88] [69, 120] [112, 120] 5 dbNew 0
    (by decide) (by decide) (by decide)
  simpa using h

/-! ### Order lemmas for the expiration index -/

theorem keyLtB_irrefl : ∀ k : Key, keyLtB k k = false
  | [] => rfl
  | a :: rest => by simp [keyLtB, keyLtB_irrefl rest]

theorem keyLtB_trans :
    ∀ a b c : Key, keyLtB a b = true → keyLtB b c = true → keyLtB a c = true
  | [], [], [] => by simp [keyLtB]
  | [], [], _ :: _ => by simp [keyLtB]
  | [], _ :: _, [] => by simp [keyLtB]
  | [], _ :: _, _ :: _ => by simp [keyLtB]
  | _ :: _, [], _ => by simp [keyLtB]
  | _ :: _, _ :: _, [] => by simp [keyLtB]
  | x :: xs, y :: ys, z :: zs => by
    simp only [keyLtB, Bool.or_eq_true, Bool.and_eq_true, decide_eq_true_eq]
    rintro (hxy | ⟨hxy, hxy2⟩) (hyz | ⟨hyz, hyz2⟩)
    · left; omega
    · left; omega
    · left; omega
    · exact Or.inr ⟨by omega, keyLtB_trans xs ys zs hxy2 hyz2⟩

theorem keyLtB_total :
    ∀ a b : Key, keyLtB a b = false → a ≠ b → keyLtB b a = true
  | [], [] => by simp
  | [], _ :: _ => by simp [keyLtB]
  | _ :: _, [] => by simp [keyLtB]
  | x :: xs, y :: ys => by
    simp only [keyLtB, Bool.or_eq_false_iff, Bool.and_eq_false_iff,
      decide_eq_false_iff_not, Bool.or_eq_true, Bool.and_eq_true, decide_eq_true_eq,
      ne_eq, List.cons.injEq, not_and]
    intro h hne
    by_cases hxy : x = y
    · subst hxy
      rcases h.2 with h2 | h2
      · exact absurd rfl h2
      · exact Or.inr ⟨rfl, keyLtB_total xs ys h2 (fun he => hne rfl he)⟩
    · exact Or.inl (by omega)

theorem pairLtB_irrefl (p : Nat × Key) : pairLtB p p = false := by
  simp [pairLtB, keyLtB_irrefl]

theorem pairLtB_trans (a b c : Nat × Key) (h1 : pairLtB a b = true)
    (h2 : pairLtB b c = true) : pairLtB a c = true := by
  simp only [pairLtB, Bool.or_eq_true, Bool.and_eq_true, decide_eq_true_eq] at h1 h2 ⊢
  rcases h1 with h1 | ⟨h1, h1k⟩ <;> rcases h2 with h2 | ⟨h2, h2k⟩
  · left; omega
  · left; omega
  · left; omega
  · exact Or.inr ⟨by omega, keyLtB_trans _ _ _ h1k h2k⟩

theorem pairLtB_total (a b : Nat × Key) (h : pairLtB a b = false) (hne : a ≠ b) :
    pairLtB b a = true := by
  simp only [pairLtB, Bool.or_eq_false_iff, Bool.and_eq_false_iff,
    decide_eq_false_iff_not, Bool.or_eq_true, Bool.and_eq_true, decide_eq_true_eq] at h ⊢
  by_cases h1 : a.1 = b.1
  · rcases h.2 with h2 | h2
    · exact absurd h1 h2
    · have hk : a.2 ≠ b.2 := by
        intro he
        exact hne (Prod.ext h1 he)
      exact Or.inr ⟨h1.symm, keyLtB_total a.2 b.2 h2 hk⟩
  · exact Or.inl (by omega)

theorem mem_insertPair (x p : Nat × Key) :
    ∀ l : List (Nat × Key), x ∈ insertPair p l ↔ x = p ∨ x ∈ l
  | [] => by simp [insertPair]
  | q :: rest => by
    simp only [insertPair]
    by_cases h1 : pairLtB p q = true
    · rw [if_pos h1]
      simp only [List.mem_cons]
    · rw [if_neg h1]
      by_cases h2 : p = q
      · rw [if_pos h2]
        subst h2
        simp only [List.mem_cons]
        tauto
      · rw [if_neg h2]
        simp only [List.mem_cons, mem_insertPair x p rest]
        tauto

theorem sorted_insertPair (p : Nat × Key) :
    ∀ l : List (Nat × Key), List.Pairwise (fun a b => pairLtB a b = true) l →
      List.Pairwise (fun a b => pairLtB a b = true) (insertPair p l)
  | [], _ => by simp [insertPair]
  | q :: rest, h => by
    rcases List.pairwise_cons.mp h with ⟨hq, hrest⟩
    simp only [insertPair]
    by_cases h1 : pairLtB p q = true
    · rw [if_pos h1]
      refine List.pairwise_cons.mpr ⟨?_, h⟩
      intro x hx
      rcases List.mem_cons.mp hx with rfl | hx2
      · exact h1
      · exact pairLtB_trans _ _ _ h1 (hq x hx2)
    · rw [if_neg h1]
      by_cases h2 : p = q
      · rw [if_pos h2]
        subst h2
        exact h
      · rw [if_neg h2]
        refine List.pairwise_cons.mpr ⟨?_, sorted_insertPair p rest hrest⟩
        intro x hx
        rcases (mem_insertPair x p rest).mp hx with rfl | hx2
        · exact pairLtB_total _ _ (by simpa using h1) h2
        · exact hq x hx2

theorem removePair_sublist (p : Nat × Key) :
    ∀ l : List (Nat × Key), (removePair p l).Sublist l
  | [] => by simp [removePair]
  | q :: rest => by
    simp only [removePair]
    by_cases h : q = p
    · rw [if_pos h]
      exact List.sublist_cons_self q rest
    · rw [if_neg h]
      exact List.Sublist.cons₂ q (removePair_sublist p rest)

theorem sorted_removePair (p : Nat × Key) (l : List (Nat × Key))
    (h : List.Pairwise (fun a b => pairLtB a b = true) l) :
    List.Pairwise (fun a b => pairLtB a b = true) (removePair p l) :=
  h.sublist (removePair_sublist p l)

theorem mem_removePair (x p : Nat × Key) :
    ∀ l : List (Nat × Key), List.Pairwise (fun a b => pairLtB a b = true) l →
      (x ∈ removePair p l ↔ x ∈ l ∧ x ≠ p)
  | [], _ => by simp [removePair]
  | q :: rest, h => by
    rcases List.pairwise_cons.mp h with ⟨hq, hrest⟩
    simp only [removePair]
    by_cases h1 : q = p
    · rw [if_pos h1]
      subst h1
      simp only [List.mem_cons]
      constructor
      · intro hx
        refine ⟨Or.inr hx, ?_⟩
        intro he
        subst he
        have := hq x hx
        rw [pairLtB_irrefl] at this
        exact Bool.false_ne_true this
      · rintro ⟨rfl | hx, hne⟩
        · exact absurd rfl hne
        · exact hx
    · rw [if_neg h1]
      simp only [List.mem_cons, mem_removePair x p rest hrest]
      constructor
      · rintro (rfl | ⟨hx, hne⟩)
        · exact ⟨Or.inl rfl, fun he => h1 (he ▸ rfl)⟩
        · exact ⟨Or.inr hx, hne⟩
      · rintro ⟨rfl | hx, hne⟩
        · exact Or.inl rfl
        · exact Or.inr ⟨hx, hne⟩

/-! ### Key-table lemmas -/

theorem lookup_insertEntry :
    ∀ (l : List (Key × Entry)) (k k2 : Key) (e : Entry),
      lookupKey k2 (insertEntry k e l) = if k2 = k then some e else lookupKey k2 l
  | [], k, k2, e => by
    by_cases h : k2 = k
    · subst h
      simp [insertEntry, lookupKey]
    · have h2 : ¬(k = k2) := fun hh => h hh.symm
      simp [insertEntry, lookupKey, h, h2]
  | (k3, e3) :: rest, k, k2, e => by
    by_cases h3 : k3 = k
    · subst h3
      by_cases h : k2 = k3
      · subst h
        simp [insertEntry, lookupKey]
      · have h2 : ¬(k3 = k2) := fun hh => h hh.symm
        simp [insertEntry, lookupKey, h, h2]
    · by_cases h : k2 = k3
      · subst h
        have hk : ¬(k2 = k) := fun hh => h3 (hh ▸ rfl)
        simp [insertEntry, lookupKey, h3, hk]
      · have h2 : ¬(k3 = k2) := fun hh => h hh.symm
        simp [insertEntry, lookupKey, h3, h2, lookup_insertEntry rest k k2 e]

theorem mem_keys_insertEntry (x k : Key) (e : Entry) :
    ∀ l : List (Key × Entry),
      (x ∈ (insertEntry k e l).map (fun p => p.1) ↔ x = k ∨ x ∈ l.map (fun p => p.1))
  | [] => by simp [insertEntry]
  | (k3, e3) :: rest => by
    by_cases h3 : k3 = k
    · subst h3
      simp [insertEntry]
    · simp [insertEntry, h3, mem_keys_insertEntry x k e rest]
      tauto

theorem nodup_insertEntry (k : Key) (e : Entry) :
    ∀ l : List (Key × Entry), (l.map (fun p => p.1)).Nodup →
      ((insertEntry k e l).map (fun p => p.1)).Nodup
  | [], _ => by simp [insertEntry]
  | (k3, e3) :: rest, h => by
    simp only [List.map_cons, List.nodup_cons] at h
    by_cases h3 : k3 = k
    · subst h3
      have he : insertEntry k3 e ((k3, e3) :: rest) = (k3, e) :: rest := by
        simp [insertEntry]
      rw [he]
      simp only [List.map_cons, List.nodup_cons]
      exact h
    · simp only [insertEntry, if_neg h3, List.map_cons, List.nodup_cons]
      refine ⟨?_, nodup_insertEntry k e rest h.2⟩
      rw [mem_keys_insertEntry]
      rintro (rfl | hmem)
      · exact h3 rfl
      · exact h.1 hmem

theorem lookup_eq_none_iff :
    ∀ (l : List (Key × Entry)) (k : Key),
      (lookupKey k l = none ↔ k ∉ l.map (fun p => p.1))
  | [], k => by simp [lookupKey]
  | (k3, e3) :: rest, k => by
    by_cases h : k3 = k
    · subst h
      simp [lookupKey]
    · have h2 : ¬(k = k3) := fun hh => h hh.symm
      simp [lookupKey, h, h2, lookup_eq_none_iff rest k]

theorem lookup_removeKey :
    ∀ (l : List (Key × Entry)) (k k2 : Key), (l.map (fun p => p.1)).Nodup →
      lookupKey k2 (removeKey k l) = if k2 = k then none else lookupKey k2 l
  | [], k, k2, _ => by simp [removeKey, lookupKey]
  | (k3, e3) :: rest, k, k2, h => by
    simp only [List.map_cons, List.nodup_cons] at h
    by_cases h3 : k3 = k
    · subst h3
      rw [removeKey, if_pos rfl]
      by_cases h2 : k2 = k3
      · subst h2
        rw [if_pos rfl]
        exact (lookup_eq_none_iff rest k2).mpr h.1
      · have h2b : ¬(k3 = k2) := fun hh => h2 hh.symm
        rw [if_neg h2]
        simp [lookupKey, h2b]
    · rw [removeKey, if_neg h3]
      by_cases h2 : k3 = k2
      · subst h2
        simp [lookupKey, h3]
      · simp [lookupKey, h2, lookup_removeKey rest k k2 h.2]

theorem removeKey_sublist (k : Key) :
    ∀ l : List (Key × Entry), (removeKey k l).Sublist l
  | [] => by simp [removeKey]
  | (k3, e3) :: rest => by
    by_cases h3 : k3 = k
    · rw [removeKey, if_pos h3]
      exact List.sublist_cons_self (k3, e3) rest
    · rw [removeKey, if_neg h3]
      exact List.Sublist.cons₂ (k3, e3) (removeKey_sublist k rest)

theorem nodup_removeKey (k : Key) (l : List (Key × Entry))
    (h : (l.map (fun p => p.1)).Nodup) : ((removeKey k l).map (fun p => p.1)).Nodup :=
  h.sublist ((removeKey_sublist k l).map (fun p => p.1))

/-! ### Preservation of the expiration-index invariant by `Db::set` -/

theorem dbSet_assemble (entries : List (Key × Entry)) (exps1 : List (Nat × Key))
    (k : Key) (v : List Nat) (expiresAt : Option Nat)
    (hnodup : (entries.map (fun p => p.1)).Nodup)
    (hsorted1 : List.Pairwise (fun a b => pairLtB a b = true) exps1)
    (hinv1 : ∀ w k2, (w, k2) ∈ exps1 ↔
      (∃ e, lookupKey k2 entries = some e ∧ e.expires_at = some w) ∧ k2 ≠ k) :
    ((insertEntry k ⟨v, expiresAt⟩ entries).map (fun p => p.1)).Nodup ∧
    List.Pairwise (fun a b => pairLtB a b = true)
      (match expiresAt with
       | some w2 => insertPair (w2, k) exps1
       | none => exps1) ∧
    (∀ w k2, ((w, k2) ∈
        (match expiresAt with
         | some w2 => insertPair (w2, k) exps1
         | none => exps1) ↔
      ∃ e, lookupKey k2 (insertEntry k ⟨v, expiresAt⟩ entries) = some e ∧
        e.expires_at = some w)) := by
  refine ⟨nodup_insertEntry k ⟨v, expiresAt⟩ entries hnodup, ?_, ?_⟩
  · cases expiresAt with
    | none => exact hsorted1
    | some wn => exact sorted_insertPair (wn, k) exps1 hsorted1
  · intro w k2
    rw [lookup_insertEntry entries k k2 ⟨v, expiresAt⟩]
    cases expiresAt with
    | none =>
      by_cases hk2 : k2 = k
      · rw [if_pos hk2]
        constructor
        · intro hx
          exact absurd hk2 ((hinv1 w k2).mp hx).2
        · rintro ⟨e, he, hee⟩
          injection he with hee2
          rw [← hee2] at hee
          exact Option.noConfusion hee
      · rw [if_neg hk2]
        rw [hinv1 w k2]
        constructor
        · exact fun hx => hx.1
        · exact fun hx => ⟨hx, hk2⟩
    | some wn =>
      rw [mem_insertPair]
      by_cases hk2 : k2 = k
      · subst hk2
        rw [if_pos rfl]
        constructor
        · rintro (heq | hx)
          · injection heq with h1 h2
            subst h1
            exact ⟨⟨v, some w⟩, rfl, rfl⟩
          · exact absurd rfl ((hinv1 w k2).mp hx).2
        · rintro ⟨e, he, hee⟩
          injection he with hee2
          rw [← hee2] at hee
          simp only [Option.some.injEq] at hee
          subst hee
          exact Or.inl rfl
      · rw [if_neg hk2, hinv1 w k2]
        constructor
        · rintro (heq | hx)
          · exact absurd (congrArg Prod.snd heq) hk2
          · exact hx.1
        · exact fun hx => Or.inr ⟨hx, hk2⟩

theorem dbSet_preserves (s : DbState) (k : Key) (v : List Nat) (expire : Option Nat)
    (now : Nat) (hwf : StateWF s) (hinv : DbInv s) :
    StateWF (dbSet s k v expire now).1 ∧ DbInv (dbSet s k v expire now).1 := by
  obtain ⟨hnodup, hsorted⟩ := hwf
  rcases hprev : lookupKey k s.entries with _ | e0
  · have hinv1 : ∀ w k2, ((w, k2) ∈ s.expirations ↔
        (∃ e, lookupKey k2 s.entries = some e ∧ e.expires_at = some w) ∧ k2 ≠ k) := by
      intro w k2
      rw [hinv w k2]
      constructor
      · intro hx
        refine ⟨hx, ?_⟩
        rintro rfl
        obtain ⟨e, he, _⟩ := hx
        rw [hprev] at he
        exact Option.noConfusion he
      · exact fun hx => hx.1
    cases expire with
    | none =>
      have ha := dbSet_assemble s.entries s.expirations k v none hnodup hsorted hinv1
      have hred : (dbSet s k v none now).1 =
          { s with entries := insertEntry k ⟨v, none⟩ s.entries } := by
        simp [dbSet, hprev]
      rw [hred]
      exact ⟨⟨ha.1, ha.2.1⟩, ha.2.2⟩
    | some d =>
      have ha := dbSet_assemble s.entries s.expirations k v (some (now + d))
        hnodup hsorted hinv1
      have hred : (dbSet s k v (some d) now).1 =
          { s with entries := insertEntry k ⟨v, some (now + d)⟩ s.entries,
                   expirations := insertPair (now + d, k) s.expirations } := by
        simp [dbSet, hprev]
      rw [hred]
      exact ⟨⟨ha.1, ha.2.1⟩, ha.2.2⟩
  · rcases hexp0 : e0.expires_at with _ | w0
    · have hinv1 : ∀ w k2, ((w, k2) ∈ s.expirations ↔
          (∃ e, lookupKey k2 s.entries = some e ∧ e.expires_at = some w) ∧ k2 ≠ k) := by
        intro w k2
        rw [hinv w k2]
        constructor
        · intro hx
          refine ⟨hx, ?_⟩
          rintro rfl
          obtain ⟨e, he, hee⟩ := hx
          rw [hprev] at he
          injection he with he2
          rw [← he2, hexp0] at hee
          exact Option.noConfusion hee
        · exact fun hx => hx.1
      cases expire with
      | none =>
        have ha := dbSet_assemble s.entries s.expirations k v none hnodup hsorted hinv1
        have hred : (dbSet s k v none now).1 =
            { s with entries := insertEntry k ⟨v, none⟩ s.entries } := by
          simp [dbSet, hprev, hexp0]
        rw [hred]
        exact ⟨⟨ha.1, ha.2.1⟩, ha.2.2⟩
      | some d =>
        have ha := dbSet_assemble s.entries s.expirations k v (some (now + d))
          hnodup hsorted hinv1
        have hred : (dbSet s k v (some d) now).1 =
            { s with entries := insertEntry k ⟨v, some (now + d)⟩ s.entries,
                     expirations := insertPair (now + d, k) s.expirations } := by
          simp [dbSet, hprev, hexp0]
        rw [hred]
        exact ⟨⟨ha.1, ha.2.1⟩, ha.2.2⟩
    · have hsorted1 : List.Pairwise (fun a b => pairLtB a b = true)
          (removePair (w0, k) s.expirations) := sorted_removePair _ _ hsorted
      have hinv1 : ∀ w k2, ((w, k2) ∈ removePair (w0, k) s.expirations ↔
          (∃ e, lookupKey k2 s.entries = some e ∧ e.expires_at = some w) ∧ k2 ≠ k) := by
        intro w k2
        rw [mem_removePair _ _ _ hsorted, hinv w k2]
        constructor
        · rintro ⟨hx, hne⟩
          refine ⟨hx, ?_⟩
          rintro rfl
          obtain ⟨e, he, hee⟩ := hx
          rw [hprev] at he
          injection he with he2
          rw [← he2, hexp0] at hee
          simp only [Option.some.injEq] at hee
          subst hee
          exact hne rfl
        · rintro ⟨hx, hne⟩
          refine ⟨hx, ?_⟩
          intro heq
          exact hne (congrArg Prod.snd heq)
      cases expire with
      | none =>
        have ha := dbSet_assemble s.entries (removePair (w0, k) s.expirations) k v none
          hnodup hsorted1 hinv1
        have hred : (dbSet s k v none now).1 =
            { s with entries := insertEntry k ⟨v, none⟩ s.entries,
                     expirations := removePair (w0, k) s.expirations } := by
          simp [dbSet, hprev, hexp0]
        rw [hred]
        exact ⟨⟨ha.1, ha.2.1⟩, ha.2.2⟩
      | some d =>
        have ha := dbSet_assemble s.entries (removePair (w0, k) s.expirations) k v
          (some (now + d)) hnodup hsorted1 hinv1
        have hred : (dbSet s k v (some d) now).1 =
            { s with entries := insertEntry k ⟨v, some (now + d)⟩ s.entries,
                     expirations :=
                       insertPair (now + d, k) (removePair (w0, k) s.expirations) } := by
          simp [dbSet, hprev, hexp0]
        rw [hred]
        exact ⟨⟨ha.1, ha.2.1⟩, ha.2.2⟩

/-! ### The purge loop of the eviction worker -/

theorem purgeLoop_spec (now : Nat) :
    ∀ (exps : List (Nat × Key)) (entries : List (Key × Entry)),
      List.Pairwise (fun a b => pairLtB a b = true) exps →
      (entries.map (fun p => p.1)).Nodup →
      (∀ w k, ((w, k) ∈ exps ↔
        ∃ e, lookupKey k entries = some e ∧ e.expires_at = some w)) →
      (List.Pairwise (fun a b => pairLtB a b = true) (purgeLoop now exps entries).1 ∧
       (((purgeLoop now exps entries).2.1.map (fun p => p.1)).Nodup) ∧
       (∀ w k, ((w, k) ∈ (purgeLoop now exps entries).1 ↔
         ∃ e, lookupKey k (purgeLoop now exps entries).2.1 = some e ∧
           e.expires_at = some w)) ∧
       (∀ k e, lookupKey k entries = some e →
         (e.expires_at = none ∨ ∃ w, e.expires_at = some w ∧ now < w) →
         lookupKey k (purgeLoop now exps entries).2.1 = some e) ∧
       (∀ k, lookupKey k (purgeLoop now exps entries).2.1 = none →
         lookupKey k entries = none ∨
           ∃ e w, lookupKey k entries = some e ∧ e.expires_at = some w ∧ w ≤ now) ∧
       (purgeLoop now exps entries).2.2 =
         (purgeLoop now exps entries).1.head?.map (fun p => p.1) ∧
       (∀ p ∈ (purgeLoop now exps entries).1, ∀ w,
         (purgeLoop now exps entries).2.2 = some w → w ≤ p.1))
  | [], entries, _, hnodup, hinv => by
    refine ⟨List.Pairwise.nil, hnodup, ?_, ?_, ?_, rfl, ?_⟩
    · intro w k
      exact hinv w k
    · intro k e he _
      exact he
    · intro k hk
      exact Or.inl hk
    · intro p hp
      simp only [purgeLoop, List.not_mem_nil] at hp
  | (w0, key0) :: rest, entries, hsorted, hnodup, hinv => by
    rw [List.pairwise_cons] at hsorted
    obtain ⟨hhead, hrest⟩ := hsorted
    by_cases hnow : now < w0
    · refine ⟨?_, ?_, ?_, ?_, ?_, ?_, ?_⟩ <;> simp only [purgeLoop, if_pos hnow]
      · exact List.pairwise_cons.mpr ⟨hhead, hrest⟩
      · exact hnodup
      · exact hinv
      · intro k e he _
        exact he
      · intro k hk
        exact Or.inl hk
      · rfl
      · intro p hp w hw
        have hw2 : some w0 = some w := hw
        injection hw2 with hw3
        subst hw3
        rcases List.mem_cons.mp hp with hpe | hpr
        · rw [hpe]
        · have hlt := hhead p hpr
          simp only [pairLtB, Bool.or_eq_true, Bool.and_eq_true, decide_eq_true_eq] at hlt
          rcases hlt with h | ⟨h, _⟩ <;> omega
    · -- the head pair is due: its key is removed and the loop recurses
      obtain ⟨e0, he0, hee0⟩ := (hinv w0 key0).mp (List.mem_cons_self _ _)
      have hnodup1 : ((removeKey key0 entries).map (fun p => p.1)).Nodup :=
        nodup_removeKey key0 entries hnodup
      have hinv1 : ∀ w k, ((w, k) ∈ rest ↔
          ∃ e, lookupKey k (removeKey key0 entries) = some e ∧
            e.expires_at = some w) := by
        intro w k
        rw [lookup_removeKey entries key0 k hnodup]
        by_cases hk : k = key0
        · subst hk
          rw [if_pos rfl]
          constructor
          · intro hmem
            obtain ⟨e, he, hee⟩ := (hinv w k).mp (List.mem_cons_of_mem _ hmem)
            rw [he0] at he
            injection he with he2
            rw [← he2, hee0] at hee
            injection hee with hee2
            subst hee2
            have := hhead (w0, k) hmem
            rw [pairLtB_irrefl] at this
            exact Bool.noConfusion this
          · rintro ⟨e, he, _⟩
            exact Option.noConfusion he
        · rw [if_neg hk]
          rw [← hinv w k]
          constructor
          · exact fun h => List.mem_cons_of_mem _ h
          · intro h
            rcases List.mem_cons.mp h with heq | hmem
            · exact absurd (congrArg Prod.snd heq) hk
            · exact hmem
      have ih := purgeLoop_spec now rest (removeKey key0 entries) hrest hnodup1 hinv1
      have hred : purgeLoop now ((w0, key0) :: rest) entries =
          purgeLoop now rest (removeKey key0 entries) := by
        simp [purgeLoop, hnow]
      rw [hred]
      refine ⟨ih.1, ih.2.1, ih.2.2.1, ?_, ?_, ih.2.2.2.2.2.1, ih.2.2.2.2.2.2⟩
      · -- retention of live entries
        intro k e he hlive
        by_cases hk : k = key0
        · subst hk
          rw [he0] at he
          injection he with he2
          rcases hlive with hn | ⟨w, hw, hfut⟩
          · rw [← he2, hee0] at hn
            exact Option.noConfusion hn
          · rw [← he2, hee0] at hw
            injection hw with hw2
            omega
        · refine ih.2.2.2.1 k e ?_ hlive
          rw [lookup_removeKey entries key0 k hnodup, if_neg hk]
          exact he
      · -- only due entries are removed
        intro k hk
        rcases ih.2.2.2.2.1 k hk with hnone | ⟨e, w, he, hee, hle⟩
        · rw [lookup_removeKey entries key0 k hnodup] at hnone
          by_cases hkk : k = key0
          · subst hkk
            right
            exact ⟨e0, w0, he0, hee0, by omega⟩
          · rw [if_neg hkk] at hnone
            exact Or.inl hnone
        · rw [lookup_removeKey entries key0 k hnodup] at he
          by_cases hkk : k = key0
          · rw [if_pos hkk] at he
            exact Option.noConfusion he
          · rw [if_neg hkk] at he
            exact Or.inr ⟨e, w, he, hee, hle⟩

/-! ### Deletion of a single key (spec-modelled `Db::del`) -/

theorem delOne_spec (s : DbState) (k : Key) (hwf : StateWF s) (hinv : DbInv s) :
    (StateWF (delOne s k) ∧ DbInv (delOne s k)) ∧
    lookupKey k (delOne s k).entries = none ∧
    (∀ k2, k2 ≠ k → lookupKey k2 (delOne s k).entries = lookupKey k2 s.entries) := by
  obtain ⟨hnodup, hsorted⟩ := hwf
  rcases hprev : lookupKey k s.entries with _ | e0
  · have hred : delOne s k = s := by
      simp [delOne, hprev]
    rw [hred]
    exact ⟨⟨⟨hnodup, hsorted⟩, hinv⟩, hprev, fun k2 _ => rfl⟩
  · have hb : lookupKey k (removeKey k s.entries) = none := by
      rw [lookup_removeKey s.entries k k hnodup, if_pos rfl]
    have hc : ∀ k2, k2 ≠ k →
        lookupKey k2 (removeKey k s.entries) = lookupKey k2 s.entries := by
      intro k2 hk2
      rw [lookup_removeKey s.entries k k2 hnodup, if_neg hk2]
    rcases hexp0 : e0.expires_at with _ | w0
    · have hred : delOne s k = { s with entries := removeKey k s.entries } := by
        simp [delOne, hprev, hexp0]
      have hinv2 : ∀ w k2, ((w, k2) ∈ s.expirations ↔
          ∃ e, lookupKey k2 (removeKey k s.entries) = some e ∧
            e.expires_at = some w) := by
        intro w k2
        rw [lookup_removeKey s.entries k k2 hnodup]
        by_cases hk2 : k2 = k
        · subst hk2
          rw [if_pos rfl]
          constructor
          · intro hmem
            obtain ⟨e, he, hee⟩ := (hinv w k2).mp hmem
            rw [hprev] at he
            injection he with he2
            rw [← he2, hexp0] at hee
            exact Option.noConfusion hee
          · rintro ⟨e, he, _⟩
            exact Option.noConfusion he
        · rw [if_neg hk2]
          exact hinv w k2
      rw [hred]
      exact ⟨⟨⟨nodup_removeKey k s.entries hnodup, hsorted⟩, hinv2⟩, hb, hc⟩
    · have hred : delOne s k =
          { s with entries := removeKey k s.entries,
                   expirations := removePair (w0, k) s.expirations } := by
        simp [delOne, hprev, hexp0]
      have hinv2 : ∀ w k2, ((w, k2) ∈ removePair (w0, k) s.expirations ↔
          ∃ e, lookupKey k2 (removeKey k s.entries) = some e ∧
            e.expires_at = some w) := by
        intro w k2
        rw [mem_removePair _ _ _ hsorted, lookup_removeKey s.entries k k2 hnodup]
        by_cases hk2 : k2 = k
        · subst hk2
          rw [if_pos rfl]
          constructor
          · rintro ⟨hmem, hne⟩
            obtain ⟨e, he, hee⟩ := (hinv w k2).mp hmem
            rw [hprev] at he
            injection he with he2
            rw [← he2, hexp0] at hee
            injection hee with hee2
            subst hee2
            exact absurd rfl hne
          · rintro ⟨e, he, _⟩
            exact Option.noConfusion he
        · rw [if_neg hk2]
          constructor
          · rintro ⟨hmem, _⟩
            exact (hinv w k2).mp hmem
          · intro hx
            refine ⟨(hinv w k2).mpr hx, ?_⟩
            intro heq
            exact hk2 (congrArg Prod.snd heq)
      rw [hred]
      exact ⟨⟨⟨nodup_removeKey k s.entries hnodup,
        sorted_removePair _ _ hsorted⟩, hinv2⟩, hb, hc⟩

theorem dbDel_spec :
    ∀ (keys : List Key) (s : DbState), StateWF s → DbInv s →
      ((StateWF (dbDel s keys) ∧ DbInv (dbDel s keys)) ∧
       (∀ k ∈ keys, lookupKey k (dbDel s keys).entries = none) ∧
       (∀ k, k ∉ keys →
         lookupKey k (dbDel s keys).entries = lookupKey k s.entries))
  | [], s, hwf, hinv => by
    refine ⟨⟨hwf, hinv⟩, ?_, ?_⟩
    · intro k hk
      exact absurd hk (List.not_mem_nil k)
    · intro k _
      rfl
  | k0 :: rest, s, hwf, hinv => by
    have h1 := delOne_spec s k0 hwf hinv
    have ih := dbDel_spec rest (delOne s k0) h1.1.1 h1.1.2
    have hred : dbDel s (k0 :: rest) = dbDel (delOne s k0) rest := rfl
    rw [hred]
    refine ⟨ih.1, ?_, ?_⟩
    · intro k hk
      rcases List.mem_cons.mp hk with rfl | hkr
      · by_cases hk0r : k ∈ rest
        · exact ih.2.1 k hk0r
        · rw [ih.2.2 k hk0r]
          exact h1.2.1
      · exact ih.2.1 k hkr
    · intro k hk
      have hk0 : k ≠ k0 := fun h => hk (h ▸ List.mem_cons_self _ _)
      have hkr : k ∉ rest := fun h => hk (List.mem_cons_of_mem _ h)
      rw [ih.2.2 k hkr]
      exact h1.2.2 k hk0

theorem dbDel_noop :
    ∀ (keys : List Key) (s : DbState),
      (∀ k ∈ keys, lookupKey k s.entries = none) → dbDel s keys = s
  | [], _, _ => rfl
  | k0 :: rest, s, h => by
    have h0 : delOne s k0 = s := by
      simp [delOne, h k0 (List.mem_cons_self _ _)]
    have hred : dbDel s (k0 :: rest) = dbDel (delOne s k0) rest := rfl
    rw [hred, h0]
    exact dbDel_noop rest s (fun k hk => h k (List.mem_cons_of_mem _ hk))

/-! ### Concrete stores used to instantiate the store theorems -/

theorem stateWF_dbNew : StateWF dbNew := by
  constructor <;> simp [dbNew]

theorem dbInv_dbNew : DbInv dbNew := by
  intro w k
  simp [dbNew, lookupKey]

theorem stateWF_dbSingle : StateWF dbSingle := by
  constructor <;> simp [dbSingle]

theorem dbInv_dbSingle : DbInv dbSingle := by
  intro w k
  constructor
  · intro h
    simp only [dbSingle, List.mem_singleton] at h
    injection h with h1 h2
    subst h1
    subst h2
    exact ⟨⟨strBytes ("v"), some 5⟩, by simp [dbSingle, lookupKey], rfl⟩
  · rintro ⟨e, he, hee⟩
    simp only [dbSingle, lookupKey] at he
    by_cases hk : strBytes ("a") = k
    · rw [if_pos hk] at he
      injection he with he2
      rw [← he2] at hee
      injection hee with hee2
      subst hee2
      rw [← hk]
      simp [dbSingle]
    · rw [if_neg hk] at he
      exact Option.noConfusion he

/-- C6: on a well-formed store satisfying the expiration-index invariant,
every store operation that touches expirations preserves it: `Db::set` for
every key, value and optional TTL (hence overwriting a prior entry or not),
and every pass of the eviction worker (`Shared::purge_expired_keys`) at any
instant, each yield a state that is again well-formed (duplicate-free key
table, strictly sorted index, hence exactly one pair per expiring entry) and
again satisfies the invariant (every pair references an existing entry whose
`expires_at` equals the pair's instant, and conversely). -/
theorem c6_store_invariant (s : DbState) (hwf : StateWF s) (hinv : DbInv s) :
    (∀ key value expire now,
      StateWF (dbSet s key value expire now).1 ∧
      DbInv (dbSet s key value expire now).1) ∧
    (∀ now,
      StateWF (purgeExpiredKeys s now).1 ∧
      DbInv (purgeExpiredKeys s now).1) := by
  obtain ⟨hnodup, hsorted⟩ := hwf
  constructor
  · intro key value expire now
    exact dbSet_preserves s key value expire now ⟨hnodup, hsorted⟩ hinv
  · intro now
    by_cases hsd : s.isShutdown = true
    · have hred : (purgeExpiredKeys s now).1 = s := by
        simp [purgeExpiredKeys, hsd]
      rw [hred]
      exact ⟨⟨hnodup, hsorted⟩, hinv⟩
    · have hp := purgeLoop_spec now s.expirations s.entries hsorted hnodup hinv
      have hred : (purgeExpiredKeys s now).1 =
          { s with expirations := (purgeLoop now s.expirations s.entries).1,
                   entries := (purgeLoop now s.expirations s.entries).2.1 } := by
        simp [purgeExpiredKeys, hsd]
      rw [hred]
      exact ⟨⟨hp.2.1, hp.1⟩, hp.2.2.1⟩

/-- Witness for C6: instantiated at the empty store of `Db::new` and a `SET`
with a TTL of 5 from instant 0. -/
theorem c6_store_invariant_witness :
    StateWF (dbSet dbNew (strBytes ("k")) (strBytes ("v")) (some 5) 0).1 ∧
    DbInv (dbSet dbNew (strBytes ("k")) (strBytes ("v")) (some 5) 0).1 :=
  (c6_store_invariant dbNew stateWF_dbNew dbInv_dbNew).1
    (strBytes ("k")) (strBytes ("v")) (some 5) 0

/-- C9: on a well-formed store satisfying the expiration-index invariant and
not shut down, one pass of the eviction worker (`Shared::purge_expired_keys`)
retains every entry whose `expires_at` is absent or strictly in the future,
removes only entries whose `expires_at` is set and at most the current
instant, and returns as its next wake-up target exactly the instant of the
earliest remaining expiration (`State::next_expiration`, `none` if the index
emptied), which is a lower bound on every remaining pair. -/
theorem c9_eviction_worker (s : DbState) (now : Nat)
    (hwf : StateWF s) (hinv : DbInv s) (hsd : s.isShutdown = false) :
    (∀ k e, lookupKey k s.entries = some e →
      (e.expires_at = none ∨ ∃ w, e.expires_at = some w ∧ now < w) →
      lookupKey k (purgeExpiredKeys s now).1.entries = some e) ∧
    (∀ k, lookupKey k (purgeExpiredKeys s now).1.entries = none →
      lookupKey k s.entries = none ∨
        ∃ e w, lookupKey k s.entries = some e ∧ e.expires_at = some w ∧ w ≤ now) ∧
    (purgeExpiredKeys s now).2 = nextExpiration (purgeExpiredKeys s now).1 ∧
    (∀ w, (purgeExpiredKeys s now).2 = some w →
      ∀ p ∈ (purgeExpiredKeys s now).1.expirations, w ≤ p.1) := by
  obtain ⟨hnodup, hsorted⟩ := hwf
  have hp := purgeLoop_spec now s.expirations s.entries hsorted hnodup hinv
  have hred : purgeExpiredKeys s now =
      ({ s with expirations := (purgeLoop now s.expirations s.entries).1,
                entries := (purgeLoop now s.expirations s.entries).2.1 },
       (purgeLoop now s.expirations s.entries).2.2) := by
    simp [purgeExpiredKeys, hsd]
  rw [hred]
  refine ⟨?_, ?_, ?_, ?_⟩
  · exact fun k e he hl => hp.2.2.2.1 k e he hl
  · exact fun k hk => hp.2.2.2.2.1 k hk
  · exact hp.2.2.2.2.2.1
  · intro w hw p hpmem
    exact hp.2.2.2.2.2.2 p hpmem w hw

/-- Witness for C9: one pass over the one-entry store (entry due at instant
5) taken at instant 10 reports the earliest remaining expiration as its
wake-up target. -/
theorem c9_eviction_worker_witness :
    (purgeExpiredKeys dbSingle 10).2 =
      nextExpiration (purgeExpiredKeys dbSingle 10).1 :=
  (c9_eviction_worker dbSingle 10 stateWF_dbSingle dbInv_dbSingle rfl).2.2.1

/-- C3: on a well-formed store satisfying the expiration-index invariant,
`Del::apply` with any key list removes each listed key from the key table
together with its expiration pair if it has one (no pair for the key remains
in the index), leaves unlisted keys untouched, responds `+OK`, and is
idempotent: keys absent from the table are not errors, and a second
identical DEL is a no-op on the store state that still responds `+OK`. -/
theorem c3_del_idempotent (s : DbState) (keys : List Key)
    (hwf : StateWF s) (hinv : DbInv s) :
    (∀ k ∈ keys, lookupKey k (delApply s keys).1.entries = none ∧
      ∀ w, (w, k) ∉ (delApply s keys).1.expirations) ∧
    (∀ k, k ∉ keys →
      lookupKey k (delApply s keys).1.entries = lookupKey k s.entries) ∧
    (delApply s keys).2 = Frame.simple (strBytes ("OK")) ∧
    (delApply (delApply s keys).1 keys).1 = (delApply s keys).1 ∧
    (delApply (delApply s keys).1 keys).2 = Frame.simple (strBytes ("OK")) := by
  have hd := dbDel_spec keys s hwf hinv
  refine ⟨?_, ?_, rfl, ?_, rfl⟩
  · intro k hk
    refine ⟨hd.2.1 k hk, ?_⟩
    intro w hmem
    obtain ⟨e, he, _⟩ := (hd.1.2 w k).mp hmem
    rw [hd.2.1 k hk] at he
    exact Option.noConfusion he
  · intro k hk
    exact hd.2.2 k hk
  · exact dbDel_noop keys (dbDel s keys) (fun k hk => hd.2.1 k hk)

/-- Witness for C3: deleting key `a` from the one-entry store responds `+OK`
and leaves no binding for `a`. -/
theorem c3_del_idempotent_witness :
    (delApply dbSingle [strBytes ("a")]).2 = Frame.simple (strBytes ("OK")) ∧
    lookupKey (strBytes ("a")) (delApply dbSingle [strBytes ("a")]).1.entries = none :=
  ⟨(c3_del_idempotent dbSingle [strBytes ("a")] stateWF_dbSingle dbInv_dbSingle).2.2.1,
   ((c3_del_idempotent dbSingle [strBytes ("a")] stateWF_dbSingle dbInv_dbSingle).1
      (strBytes ("a")) (List.mem_singleton.mpr rfl)).1⟩

end MiniRedis
